import Mathlib

/-!
Verification development for the srs-box fetch-and-merge pipeline.

The Python sources under `src/` are embedded shallowly:

* `src/services/processor.py` — `ProcessorService.should_filter_rule_value`,
  `ProcessorService.filter_rules`, `ProcessorService.merge_json_rulesets`,
  `ProcessorService.create_ip_ruleset_from_text_files`;
* `src/services/converter.py` — `ConverterService.sort_dict`, the output
  assembly of `ConverterService.convert_ruleset`, and the logical-rule
  parsing of `ConverterService.read_list_from_url`;
* `src/utils/network.py` — `NetworkUtils._is_cache_valid`,
  `NetworkUtils._download_with_progress`, `NetworkUtils.download_file`.

JSON documents are modelled by the inductive type `JVal`; Python `dict`s
become ordered association lists (Python 3.7+ dicts preserve insertion
order), and Python `set`s of strings become insertion-ordered duplicate-free
lists (an explicit, deterministic model of the unspecified iteration order
of a hash set).  Python's string comparison is lexicographic on Unicode
code points, embedded by the executable `lexLt` below; `sorted(...)` is
embedded as an insertion sort with respect to that order (Python's sort is
stable, and on a linear order every correct sort agrees extensionally).
-/

/-! ## Python string ordering -/

/-- Lexicographic strict comparison of character lists by Unicode code
point, exactly Python's `<` on `str`. -/
def lexLt : List Char → List Char → Bool
  | _, [] => false
  | [], _ :: _ => true
  | a :: as, b :: bs =>
    if a.val.toNat < b.val.toNat then true
    else if b.val.toNat < a.val.toNat then false
    else lexLt as bs

/-- Python's `<=` on strings, as a Bool: `a <= b` iff not `b < a`. -/
def pyLeB (a b : String) : Bool := !(lexLt b.toList a.toList)

/-- Python's `<=` on strings, as a Prop. -/
def pyLe (a b : String) : Prop := pyLeB a b = true

instance : DecidableRel pyLe := fun a b => by unfold pyLe; infer_instance

/-- Python's `sorted(...)` on a list of strings. -/
def pySorted (l : List String) : List String := List.insertionSort pyLe l

/-! ## JSON documents -/

/-- A JSON value.  Objects are association lists in insertion order
(Python 3.7+ dict order); real JSON objects have pairwise distinct keys. -/
inductive JVal where
  | str (s : String)
  | num (n : Int)
  | bool (b : Bool)
  | null
  | arr (elems : List JVal)
  | obj (fields : List (String × JVal))

/-- Look up the first binding of a key in an object's field list, the
evaluation of `data[key]` on a Python dict. -/
def lookupField (key : String) : List (String × JVal) → Option JVal
  | [] => none
  | (k, v) :: rest => if k = key then some v else lookupField key rest

/-! ## Chunked processing

`processor.py` repeatedly slices a list into fixed-size chunks with
`range(0, len(lst), chunk_size)` / `lst[i : i + chunk_size]`.  `chunkList`
embeds that slicing (for a positive chunk size, the only case the code
exercises). -/

/-- Split a list into consecutive chunks of `csize` elements (the last
chunk may be shorter), as produced by `lst[i : i + csize]` for
`i in range(0, len(lst), csize)` with `csize ≥ 1`. -/
def chunkList (csize : Nat) (l : List α) : List (List α) := go l.length l
where
  /-- Fuelled worker; the fuel starts at the list length and never runs
  out, it only makes the recursion structural. -/
  go : Nat → List α → List (List α)
  | _, [] => []
  | 0, _ :: _ => []
  | fuel + 1, x :: xs => ((x :: xs).take csize) :: go fuel (xs.drop (csize - 1))

/-- Sort each chunk independently and concatenate, with no final merge:
the large-input sorting strategy of
`ProcessorService.create_ip_ruleset_from_text_files` (chunk size 10000)
and `ProcessorService.merge_json_rulesets` (chunk size 5000). -/
def chunkedConcatSort (csize : Nat) (l : List String) : List String :=
  ((chunkList csize l).map pySorted).flatten

/-- Final sorting step of `ProcessorService.create_ip_ruleset_from_text_files`
(processor.py lines 405-425): IP sets larger than 50000 entries are sorted
in chunks of 10000 and concatenated; smaller sets get one global sort. -/
def ipFinalSort (ipList : List String) : List String :=
  if ipList.length > 50000 then chunkedConcatSort 10000 ipList
  else pySorted ipList

/-- Value-list finalisation of `ProcessorService.merge_json_rulesets`
(processor.py lines 308-329): more than 10000 values are sorted in chunks
of 5000 and concatenated; otherwise one global sort. -/
def mergeFinalSort (vs : List String) : List String :=
  if vs.length > 10000 then chunkedConcatSort 5000 vs
  else pySorted vs

/-! ## Rule filtering (`processor.py` lines 73-158) -/

/-- The denylist `ProcessorService.filter_keywords`. -/
def filterKeywords : List String := ["ruleset.skk.moe"]

/-- Executable prefix test on character lists. -/
def isPrefixC : List Char → List Char → Bool
  | [], _ => true
  | _ :: _, [] => false
  | a :: as, b :: bs => a == b && isPrefixC as bs

/-- Executable substring test on character lists: Python's `pat in s`. -/
def isSubstrC (pat : List Char) : List Char → Bool
  | [] => pat.isEmpty
  | b :: bs => isPrefixC pat (b :: bs) || isSubstrC pat bs

/-- ASCII lower-casing of one character (`str.lower`; the denylist is
ASCII, so the ASCII fragment of Python's Unicode lower-casing suffices). -/
def lowerChar (c : Char) : Char :=
  if 65 ≤ c.val.toNat ∧ c.val.toNat ≤ 90 then Char.ofNat (c.val.toNat + 32) else c

/-- `ProcessorService.should_filter_rule_value`: a non-string value is
never filtered; a string is filtered iff its lower-cased form contains
some denylist keyword as a substring. -/
def shouldFilterRuleValue : JVal → Bool
  | .str v => filterKeywords.any (fun kw => isSubstrC kw.toList (v.toList.map lowerChar))
  | _ => false

/-- Value filtering inside `ProcessorService.filter_rules`: the values of
one rule entry are processed in chunks of 1000 (`value_batch_size`) and
the surviving values of each chunk are concatenated. -/
def filterValuesBatched (vs : List JVal) : List JVal :=
  ((chunkList 1000 vs).map (fun batch =>
    batch.filter (fun v => !(shouldFilterRuleValue v)))).flatten

/-- Per-rule step of `ProcessorService.filter_rules`: non-list fields are
skipped, each list field keeps only non-filtered values, and fields whose
value list becomes empty are dropped.  Returns the surviving fields and
the number of removed values. -/
def filterRuleFields : List (String × JVal) → List (String × JVal) × Nat
  | [] => ([], 0)
  | (rt, v) :: rest =>
    let (restFields, restCount) := filterRuleFields rest
    match v with
    | .arr vs =>
      let kept := filterValuesBatched vs
      let dropped := vs.length - kept.length
      if kept.isEmpty then (restFields, dropped + restCount)
      else ((rt, .arr kept) :: restFields, dropped + restCount)
    | _ => (restFields, restCount)

/-- One rule's contribution in `ProcessorService.filter_rules`: a dict
rule keeps its filtered fields (the whole rule is dropped when no field
survives) and contributes its removed-value count; a non-dict rule is
skipped. -/
def filterRuleStep (rule : JVal) (acc : List JVal × Nat) : List JVal × Nat :=
  match rule with
  | .obj fields =>
    let (keptFields, cnt) := filterRuleFields fields
    if keptFields.isEmpty then (acc.1, cnt + acc.2)
    else (.obj keptFields :: acc.1, cnt + acc.2)
  | _ => acc

/-- `ProcessorService.filter_rules` (processor.py lines 89-158): rules are
processed in batches of 100 (an artefact with no observable effect on the
result) whose filtered rules and counts are concatenated and added.
Returns `(filtered_rules, filtered_count)`. -/
def filterRules (rules : List JVal) : List JVal × Nat :=
  ((chunkList 100 rules).map (fun batch => batch.foldr filterRuleStep ([], 0))).foldr
    (fun p acc => (p.1 ++ acc.1, p.2 + acc.2)) ([], 0)

/-! ## JSON ruleset merging (`processor.py` lines 225-341) -/

/-- Extraction of the rule list from one JSON payload
(processor.py lines 252-257): a payload object with a list-valued
`"rules"` field contributes that list, any other payload is treated as a
single rule.  (Non-dict payloads are also covered: the per-rule loop skips
every non-dict rule, which matches the Python behaviour of contributing
nothing for such payloads, whether via the `except` handler or via the
`isinstance` guard.) -/
def extractRules (payload : JVal) : List JVal :=
  match payload with
  | .obj fields =>
    match lookupField "rules" fields with
    | some (.arr rs) => rs
    | _ => [payload]
  | _ => [payload]

/-- Insert a string into an insertion-ordered duplicate-free list, the
model of Python's `set.add`. -/
def insertValue (v : String) (vs : List String) : List String :=
  if v ∈ vs then vs else vs ++ [v]

/-- Add the string elements of one JSON array to a rule group
(processor.py lines 273-282): values are visited in chunks of 1000, in
order, and only strings are added. -/
def addRuleValues (vals : List JVal) (group : List String) : List String :=
  ((chunkList 1000 vals).flatten).foldl
    (fun g v => match v with | .str s => insertValue s g | _ => g) group

/-- The `rule_groups` accumulator: an insertion-ordered association from
rule type to its (insertion-ordered, duplicate-free) value set. -/
abbrev RuleGroups := List (String × List String)

/-- Ensure a key is present in the accumulator
(`if rule_type not in rule_groups: rule_groups[rule_type] = set()`). -/
def ensureGroup (rt : String) (gs : RuleGroups) : RuleGroups :=
  if gs.any (fun p => p.1 = rt) then gs else gs ++ [(rt, [])]

/-- Update the value set bound to a key. -/
def updateGroup (rt : String) (f : List String → List String) : RuleGroups → RuleGroups
  | [] => []
  | (k, vs) :: rest =>
    if k = rt then (k, f vs) :: rest else (k, vs) :: updateGroup rt f rest

/-- Fold one `(rule_type, rule_values)` field into the accumulator
(processor.py lines 264-282): only list-valued fields count; the rule type
is registered, then its string values are added. -/
def foldField (gs : RuleGroups) (p : String × JVal) : RuleGroups :=
  match p.2 with
  | .arr vals => updateGroup p.1 (addRuleValues vals) (ensureGroup p.1 gs)
  | _ => gs

/-- Fold one rule object's fields into the accumulator; non-dict rules are
skipped. -/
def foldRule (gs : RuleGroups) (rule : JVal) : RuleGroups :=
  match rule with
  | .obj fields => fields.foldl foldField gs
  | _ => gs

/-- Fold a list of payloads into the accumulator
(processor.py lines 243-290). -/
def collectGroups (payloads : List JVal) : RuleGroups :=
  payloads.foldl (fun gs p => (extractRules p).foldl foldRule gs) []

/-- `ProcessorService.merge_json_rulesets` (processor.py lines 225-341):
fold all payloads into `rule_groups`, then emit one rule object per
non-empty rule type, in encounter order, with the value set sorted by
`mergeFinalSort`. -/
def mergeJsonRulesets (payloads : List JVal) (configVersion : Int) : JVal :=
  let groups := collectGroups payloads
  let mergedRules := groups.foldr (fun (p : String × List String) acc =>
    if p.2.isEmpty then acc
    else JVal.obj [(p.1, JVal.arr ((mergeFinalSort p.2).map JVal.str))] :: acc) []
  JVal.obj [("version", JVal.num configVersion), ("rules", JVal.arr mergedRules)]

/-! ## Converter output assembly (`converter.py` lines 296-311) -/

/-- The rules-list assembly of `ConverterService.convert_ruleset`
(converter.py lines 296-311): one rule object per non-empty non-domain
type in encounter order with sorted values, then the sorted `domain`
entries inserted at index 0 if any, then all logical rules appended. -/
def assembleConvertRules (mergedByType : List (String × List String))
    (domainEntries : List String) (logicRules : List JVal) (version : Int) : JVal :=
  let scalarRules := mergedByType.foldr (fun p acc =>
    if p.2.isEmpty then acc
    else JVal.obj [(p.1, JVal.arr ((pySorted p.2).map JVal.str))] :: acc) []
  let withDomain :=
    if domainEntries.isEmpty then scalarRules
    else JVal.obj [("domain", JVal.arr ((pySorted domainEntries).map JVal.str))] :: scalarRules
  JVal.obj [("version", JVal.num version), ("rules", JVal.arr (withDomain ++ logicRules))]

/-! ## Logical-rule parsing (`converter.py` lines 144-164) -/

/-- `ConverterService.MAP_DICT`, in insertion order. -/
def mapDict : List (String × String) :=
  [("DOMAIN-SUFFIX", "domain_suffix"), ("HOST-SUFFIX", "domain_suffix"),
   ("host-suffix", "domain_suffix"), ("DOMAIN", "domain"), ("HOST", "domain"),
   ("host", "domain"), ("DOMAIN-KEYWORD", "domain_keyword"),
   ("HOST-KEYWORD", "domain_keyword"), ("host-keyword", "domain_keyword"),
   ("IP-CIDR", "ip_cidr"), ("ip-cidr", "ip_cidr"), ("IP-CIDR6", "ip_cidr"),
   ("IP6-CIDR", "ip_cidr"), ("SRC-IP-CIDR", "source_ip_cidr"),
   ("GEOIP", "geoip"), ("DST-PORT", "port"), ("SRC-PORT", "source_port"),
   ("URL-REGEX", "domain_regex"), ("DOMAIN-REGEX", "domain_regex")]

/-- Split a character list at its first `)`: the text before it and the
remainder after it, or `none` when there is no `)`. -/
def splitAtClose : List Char → Option (List Char × List Char)
  | [] => none
  | c :: rest =>
    if c = ')' then some ([], rest)
    else
      match splitAtClose rest with
      | some (comp, rem) => some (c :: comp, rem)
      | none => none

lemma splitAtClose_length {s comp rem : List Char}
    (h : splitAtClose s = some (comp, rem)) : rem.length < s.length := by
  induction s generalizing comp rem with
  | nil => simp [splitAtClose] at h
  | cons c rest ih =>
    by_cases hc : c = ')'
    · simp only [splitAtClose, if_pos hc, Option.some.injEq, Prod.mk.injEq] at h
      obtain ⟨-, h2⟩ := h
      subst h2
      simp
    · simp only [splitAtClose, if_neg hc] at h
      cases hs : splitAtClose rest with
      | none => rw [hs] at h; exact absurd h (by simp)
      | some pr =>
        obtain ⟨comp', rem'⟩ := pr
        rw [hs] at h
        simp only [Option.some.injEq, Prod.mk.injEq] at h
        obtain ⟨-, h2⟩ := h
        subst h2
        exact Nat.lt_trans (ih hs) (by simp)

/-- `re.findall(r'\((.*?)\)', pattern)`: scan left to right; at each `(`
that is followed by a later `)`, capture the (possibly `(`-containing)
text up to the nearest `)` and continue after it. -/
def findComponents (l : List Char) : List (List Char) := go l.length l
where
  /-- Fuelled worker (`splitAtClose` strictly shrinks the remainder, so
  fuel equal to the length never runs out). -/
  go : Nat → List Char → List (List Char)
  | _, [] => []
  | 0, _ :: _ => []
  | fuel + 1, c :: rest =>
    if c = '(' then
      match splitAtClose rest with
      | some (comp, rem) => comp :: go fuel rem
      | none => []
    else go fuel rest

/-- The remainder of `s` after the first occurrence of `pat`, if any:
the `(.*)` group of `re.search(f'{pat}(.*)', s)` for a literal `pat`. -/
def afterFirst (pat : List Char) : List Char → Option (List Char)
  | [] => if pat.isEmpty then some [] else none
  | c :: rest =>
    if isPrefixC pat (c :: rest) then some ((c :: rest).drop pat.length)
    else afterFirst pat rest

/-- Subrule extraction for one parenthesised component
(converter.py lines 156-163): every `MAP_DICT` keyword occurring in the
component contributes, via `re.search(f'{keyword},(.*)', component)`, one
subrule mapping the canonical type to the text after `keyword,`. -/
def parseComponent (comp : List Char) : List JVal :=
  mapDict.foldl (fun acc (p : String × String) =>
    if isSubstrC p.1.toList comp then
      match afterFirst (p.1.toList ++ [',']) comp with
      | some v => acc ++ [JVal.obj [(p.2, JVal.str (String.mk v))]]
      | none => acc
    else acc) []

/-- Parsing of one `AND` line into a logical rule
(converter.py lines 147-164).  The CSV round trip
`",".join(row.values.astype(str))` reconstructs the raw line for a
five-field line, so the parser is embedded on the raw line directly. -/
def parseAndRule (line : String) : JVal :=
  JVal.obj [("type", JVal.str "logical"), ("mode", JVal.str "and"),
    ("rules", JVal.arr ((findComponents line.toList).foldl
      (fun acc comp => acc ++ parseComponent comp) []))]

/-! ## Network: cache validity, fetch routing, retry loop
(`network.py` lines 158-177, 200-318, 320-416) -/

/-- An on-disk cache entry: its byte size and modification time.
Timestamps are integers (seconds). -/
structure CacheFile where
  sizeBytes : Nat
  mtime : Int

/-- `NetworkUtils._is_cache_valid` (network.py lines 158-177): the file
must exist, be non-empty, and be younger than the TTL. -/
def isCacheValid (entry : Option CacheFile) (now ttl : Int) : Bool :=
  match entry with
  | none => false
  | some e => if e.sizeBytes = 0 then false else decide (now - e.mtime < ttl)

/-- Outcome of the single network transfer inside
`NetworkUtils._download_with_progress`: either the body streams completely
(`ok bytes`), or a `URLError`/`HTTPError`/`OSError` is raised after
`partialBytes` body bytes were written (`afterHeaders` tells whether the
response headers had already been processed). -/
inductive NetOutcome where
  | ok (bytes : Nat)
  | fail (partialBytes : Nat) (afterHeaders : Bool)

/-- Environment of one `_download_with_progress` call: cache state, the
pre-existing destination file, and the server's behaviour. -/
structure DlEnv where
  useCache : Bool
  cacheEntry : Option CacheFile
  now : Int
  ttl : Int
  cacheCopyOk : Bool
  supportResume : Bool
  destSize : Option Nat
  serverSupportsRange : Bool
  rangeHonored : Bool
  net : NetOutcome

/-- Result of one `_download_with_progress` call: whether it returned
success, the destination file afterwards (`none` = absent), whether the
network was contacted, and whether an exception propagated. -/
structure DlResult where
  success : Bool
  dest : Option Nat
  usedNetwork : Bool
  raised : Bool

/-- The resume offset computed in network.py lines 244-249: only when
resume is enabled, the destination already has `> 0` bytes, and the HEAD
probe reports Range support. -/
def resumePosOf (env : DlEnv) : Nat :=
  if env.supportResume then
    match env.destSize with
    | some sz => if 0 < sz ∧ env.serverSupportsRange then sz else 0
    | none => 0
  else 0

/-- `NetworkUtils._download_with_progress` (network.py lines 200-318).
A valid cache entry whose copy succeeds is returned without touching the
network; otherwise the transfer runs from `resumePosOf`.  When the server
ignores the Range request (no `Content-Range`, line 266-269), the offset
is reset to zero before the file is opened.  On an exception the partial
file is deleted iff the offset in effect is zero (lines 310-318), and the
exception propagates. -/
def downloadWithProgress (env : DlEnv) : DlResult :=
  if env.useCache ∧ isCacheValid env.cacheEntry env.now env.ttl ∧ env.cacheCopyOk then
    { success := true,
      dest := some ((env.cacheEntry.map CacheFile.sizeBytes).getD 0),
      usedNetwork := false, raised := false }
  else
    match env.net with
    | .ok bytes =>
      { success := true,
        dest := some ((if 0 < resumePosOf env ∧ !env.rangeHonored then 0
          else resumePosOf env) + bytes),
        usedNetwork := true, raised := false }
    | .fail partialBytes afterHeaders =>
      if (if 0 < resumePosOf env ∧ afterHeaders ∧ !env.rangeHonored then 0
          else resumePosOf env) = 0 then
        { success := false, dest := none, usedNetwork := true, raised := true }
      else
        { success := false,
          dest := some ((if 0 < resumePosOf env ∧ afterHeaders ∧ !env.rangeHonored then 0
            else resumePosOf env) + partialBytes),
          usedNetwork := true, raised := true }

/-! ## Retry loop of `NetworkUtils.download_file` (network.py lines 320-416) -/

/-- Outcome of one `_download_with_progress` call as observed by the retry
loop of `download_file`: a normal return with the final file size, or one
of the three caught exception classes. -/
inductive AttemptOutcome where
  | success (size : Nat)
  | httpError (code : Nat)
  | urlError
  | otherError

/-- The HTTP codes that are never retried (network.py line 386). -/
def nonRetryableCodes : List Nat := [400, 401, 403, 404, 410]

/-- Whether an outcome sends the loop into another attempt. -/
def retriesAfter : AttemptOutcome → Prop
  | .httpError code => code ∉ nonRetryableCodes
  | .urlError => True
  | .otherError => True
  | .success _ => False

/-- What the retry loop did: whether it returned `True`, how many calls to
`_download_with_progress` it made, and the sleeps it performed, in order. -/
structure DownloadTrace where
  success : Bool
  attemptsMade : Nat
  sleeps : List ℚ

/-- The `for attempt in range(max_retries + 1)` loop of `download_file`
(network.py lines 369-416), with the environment's per-attempt outcomes as
an oracle.  `retry_delays[attempt] = retry_delay * 2 ** attempt`; a
success with zero size falls through to the next attempt without sleeping;
a non-retryable HTTP code breaks out at once; other errors sleep and retry
while `attempt < max_retries`. -/
def runDownloadLoop (outcome : Nat → AttemptOutcome) (maxRetries : Nat)
    (baseDelay : ℚ) : Nat → Nat → List ℚ → DownloadTrace
  | attempt, 0, sleeps => ⟨false, attempt, sleeps.reverse⟩
  | attempt, fuel + 1, sleeps =>
    match outcome attempt with
    | .success size =>
      if 0 < size then ⟨true, attempt + 1, sleeps.reverse⟩
      else runDownloadLoop outcome maxRetries baseDelay (attempt + 1) fuel sleeps
    | .httpError code =>
      if code ∈ nonRetryableCodes then ⟨false, attempt + 1, sleeps.reverse⟩
      else if attempt < maxRetries then
        runDownloadLoop outcome maxRetries baseDelay (attempt + 1) fuel
          (baseDelay * 2 ^ attempt :: sleeps)
      else ⟨false, attempt + 1, sleeps.reverse⟩
    | .urlError =>
      if attempt < maxRetries then
        runDownloadLoop outcome maxRetries baseDelay (attempt + 1) fuel
          (baseDelay * 2 ^ attempt :: sleeps)
      else ⟨false, attempt + 1, sleeps.reverse⟩
    | .otherError =>
      if attempt < maxRetries then
        runDownloadLoop outcome maxRetries baseDelay (attempt + 1) fuel
          (baseDelay * 2 ^ attempt :: sleeps)
      else ⟨false, attempt + 1, sleeps.reverse⟩

/-- The whole retry phase of `download_file`: at most `maxRetries + 1`
attempts starting from attempt 0. -/
def runDownload (outcome : Nat → AttemptOutcome) (maxRetries : Nat)
    (baseDelay : ℚ) : DownloadTrace :=
  runDownloadLoop outcome maxRetries baseDelay 0 (maxRetries + 1) []

/-- `NetworkUtils.download_file` (network.py lines 320-416): a readable
non-empty pre-existing destination file short-circuits the whole fetch
(lines 349-362); otherwise the retry loop runs. -/
def downloadFile (localFileComplete : Bool) (outcome : Nat → AttemptOutcome)
    (maxRetries : Nat) (baseDelay : ℚ) : DownloadTrace :=
  if localFileComplete then ⟨true, 0, []⟩
  else runDownload outcome maxRetries baseDelay

/-! ## `ConverterService.sort_dict` (converter.py lines 412-427) -/

/-- Stable sort of an object's fields by key, the model of
`sorted(data.items())` (dict keys are distinct, so the tuple comparison
never reaches the values and orders by key alone). -/
def sortFieldsByKey (fs : List (String × JVal)) : List (String × JVal) :=
  List.insertionSort (fun p q => pyLe p.1 q.1) fs

mutual

/-- `ConverterService.sort_dict`: objects get their keys sorted and their
values recursed into; arrays keep their element order, recursing into
object and array elements (scalar elements pass through unchanged, which
coincides with recursing into them); scalars are returned as-is.  No list
is ever re-ordered. -/
def sortDict : JVal → JVal
  | .str s => .str s
  | .num n => .num n
  | .bool b => .bool b
  | .null => .null
  | .obj fs => .obj (sortFieldsByKey (sortDictFields fs))
  | .arr xs => .arr (sortDictList xs)

/-- `sort_dict` applied to each field value of an object. -/
def sortDictFields : List (String × JVal) → List (String × JVal)
  | [] => []
  | (k, v) :: rest => (k, sortDict v) :: sortDictFields rest

/-- `sort_dict` applied to each element of an array, preserving order. -/
def sortDictList : List JVal → List JVal
  | [] => []
  | x :: xs => sortDict x :: sortDictList xs

end

/-- Whether a key list is sorted with respect to Python string order. -/
def fieldKeysOrdered : List String → Bool
  | [] => true
  | [_] => true
  | a :: b :: rest => pyLeB a b && fieldKeysOrdered (b :: rest)

mutual

/-- Whether every object in a document has its keys in (non-strict)
sorted order, recursively. -/
def keysSorted : JVal → Bool
  | .obj fs => fieldKeysOrdered (fs.map Prod.fst) && keysSortedFields fs
  | .arr xs => keysSortedList xs
  | _ => true

/-- `keysSorted` on all field values. -/
def keysSortedFields : List (String × JVal) → Bool
  | [] => true
  | (_, v) :: rest => keysSorted v && keysSortedFields rest

/-- `keysSorted` on all array elements. -/
def keysSortedList : List JVal → Bool
  | [] => true
  | x :: xs => keysSorted x && keysSortedList xs

end

mutual

/-- Whether every array of a document whose elements are all strings is
in (non-strict) sorted order — the list-sorting property the specification
ascribes to the output writer.  Modelled from the spec: "sorted
list-of-scalar values ... for deterministic byte-identical output". -/
def scalarListsSorted : JVal → Bool
  | .obj fs => scalarListsSortedFields fs
  | .arr xs =>
    (if xs.all (fun x => match x with | .str _ => true | _ => false) then
      fieldKeysOrdered (xs.filterMap (fun x => match x with | .str s => some s | _ => none))
    else true) && scalarListsSortedList xs
  | _ => true

/-- `scalarListsSorted` on all field values. -/
def scalarListsSortedFields : List (String × JVal) → Bool
  | [] => true
  | (_, v) :: rest => scalarListsSorted v && scalarListsSortedFields rest

/-- `scalarListsSorted` on all array elements. -/
def scalarListsSortedList : List JVal → Bool
  | [] => true
  | x :: xs => scalarListsSorted x && scalarListsSortedList xs

end

/-! ## Accessors and reference descriptions used in theorem statements -/

/-- The rule list of a ruleset document (`doc["rules"]`). -/
def rulesOf (doc : JVal) : List JVal :=
  match doc with
  | .obj fields =>
    match lookupField "rules" fields with
    | some (.arr rs) => rs
    | _ => []
  | _ => []

/-- The keys of the `rule_groups` accumulator, in encounter order. -/
def groupKeys (gs : RuleGroups) : List String := gs.map Prod.fst

/-- The value set collected for one rule type (empty when the rule type
was never registered). -/
def groupVals (gs : RuleGroups) (rt : String) : List String :=
  match gs with
  | [] => []
  | (k, vs) :: rest => if k = rt then vs else groupVals rest rt

/-- Whether one rule object carries the string value `x` under rule type
`rt` (in some list-valued `rt` field). -/
def ruleHasVal (rt x : String) : JVal → Prop
  | .obj fields => ∃ vs, (rt, JVal.arr vs) ∈ fields ∧ JVal.str x ∈ vs
  | _ => False

/-- Whether one rule object has a list-valued field of rule type `rt`
(which registers `rt` in `rule_groups` even when no string value is
added). -/
def ruleHasKey (rt : String) : JVal → Prop
  | .obj fields => ∃ v, (rt, v) ∈ fields ∧ ∃ vs, v = JVal.arr vs
  | _ => False

/-- Whether some rule of a payload carries `x` under `rt`. -/
def payloadHasVal (rt x : String) (p : JVal) : Prop :=
  ∃ r ∈ extractRules p, ruleHasVal rt x r

/-- Whether some rule of a payload registers rule type `rt`. -/
def payloadHasKey (rt : String) (p : JVal) : Prop :=
  ∃ r ∈ extractRules p, ruleHasKey rt r

/-- The filtering of one rule's fields exactly as the specification
describes it: list fields keep the values no denylist keyword matches,
fields left empty disappear, non-list fields disappear. -/
def filterFieldsRef (fields : List (String × JVal)) : List (String × JVal) :=
  fields.filterMap (fun p =>
    match p.2 with
    | .arr vs =>
      let kept := vs.filter (fun v => !(shouldFilterRuleValue v))
      if kept.isEmpty then none else some (p.1, .arr kept)
    | _ => none)

/-- The number of values removed from one rule, as the specification
describes it: the matched values of every list field. -/
def countRemovedFields (fields : List (String × JVal)) : Nat :=
  (fields.map (fun p =>
    match p.2 with
    | .arr vs => (vs.filter (fun v => shouldFilterRuleValue v)).length
    | _ => 0)).sum

/-- The rule filter exactly as the specification describes it: each dict
rule keeps its filtered fields (and is dropped when none survive),
non-dict rules are dropped, and the removed values are counted. -/
def filterRulesRef (rules : List JVal) : List JVal × Nat :=
  (rules.filterMap (fun rule =>
    match rule with
    | .obj fields =>
      let kept := filterFieldsRef fields
      if kept.isEmpty then none else some (.obj kept)
    | _ => none),
   (rules.map (fun rule =>
    match rule with
    | .obj fields => countRemovedFields fields
    | _ => 0)).sum)

/-- The scalar rule objects emitted by the converter assembly for the
non-domain rule types, in encounter order. -/
def nonDomainRules (mergedByType : List (String × List String)) : List JVal :=
  mergedByType.foldr (fun p acc =>
    if p.2.isEmpty then acc
    else JVal.obj [(p.1, JVal.arr ((pySorted p.2).map JVal.str))] :: acc) []

/-- Well-formedness of the accumulator: rule types are registered at most
once and every value set is duplicate-free (the model's invariant for a
Python `Dict[str, Set[str]]`). -/
def groupsWF (gs : RuleGroups) : Prop :=
  (groupKeys gs).Nodup ∧ ∀ p ∈ gs, p.2.Nodup

/-- A downloaded payload whose single rule carries one `ip_cidr` value. -/
def ipPayload : JVal :=
  JVal.obj [("rules", JVal.arr [JVal.obj [("ip_cidr", JVal.arr [JVal.str "10.0.0.0/8"])]])]

/-- A downloaded payload whose single rule carries one `domain` value. -/
def domainPayload : JVal :=
  JVal.obj [("rules", JVal.arr [JVal.obj [("domain", JVal.arr [JVal.str "a.com"])]])]

/-- A filler string of `n + 1` letters `b`. -/
def bstr (n : Nat) : String := String.mk (List.replicate (n + 1) 'b')

/-- A value set of 50001 distinct entries on which the chunked sort and
the global sort disagree: the 50000 `b`-strings fill the first chunks and
the globally smallest entry `"a"` sits in the last chunk. -/
def cexList : List String := (List.range 50000).map bstr ++ ["a"]

/-! ## Order properties of the embedded Python string order -/

lemma char_eq_of_toNat_eq {a b : Char} (h : a.val.toNat = b.val.toNat) : a = b := by
  cases a; cases b
  simp_all [Char.ext_iff, UInt32.ext_iff, Fin.ext_iff]

lemma lexLt_irrefl : ∀ l : List Char, lexLt l l = false := by
  intro l
  induction l with
  | nil => rfl
  | cons a as ih => simp [lexLt, ih]

lemma lexLt_asymm : ∀ {l₁ l₂ : List Char}, lexLt l₁ l₂ = true → lexLt l₂ l₁ = false := by
  intro l₁
  induction l₁ with
  | nil =>
    intro l₂ h
    cases l₂ with
    | nil => simp [lexLt] at h
    | cons b bs => rfl
  | cons a as ih =>
    intro l₂ h
    cases l₂ with
    | nil => simp [lexLt] at h
    | cons b bs =>
      by_cases hab : a.val.toNat < b.val.toNat
      · have hba : ¬ b.val.toNat < a.val.toNat := by omega
        simp [lexLt, hab, hba]
      · by_cases hba : b.val.toNat < a.val.toNat
        · simp [lexLt, hab, hba] at h
        · simp only [lexLt, if_neg hab, if_neg hba] at h ⊢
          exact ih h

lemma lexLt_eq_of_both_false : ∀ {l₁ l₂ : List Char},
    lexLt l₁ l₂ = false → lexLt l₂ l₁ = false → l₁ = l₂ := by
  intro l₁
  induction l₁ with
  | nil =>
    intro l₂ h₁ h₂
    cases l₂ with
    | nil => rfl
    | cons b bs => simp [lexLt] at h₁
  | cons a as ih =>
    intro l₂ h₁ h₂
    cases l₂ with
    | nil => simp [lexLt] at h₂
    | cons b bs =>
      by_cases hab : a.val.toNat < b.val.toNat
      · simp [lexLt, hab] at h₁
      · by_cases hba : b.val.toNat < a.val.toNat
        · simp [lexLt, hba, hab] at h₂
        · simp only [lexLt, if_neg hab, if_neg hba] at h₁ h₂
          have : a = b := char_eq_of_toNat_eq (by omega)
          rw [this, ih h₁ h₂]

lemma lexLt_trans : ∀ {l₁ l₂ l₃ : List Char},
    lexLt l₁ l₂ = true → lexLt l₂ l₃ = true → lexLt l₁ l₃ = true := by
  intro l₁
  induction l₁ with
  | nil =>
    intro l₂ l₃ h₁ h₂
    cases l₃ with
    | nil =>
      cases l₂ with
      | nil => simp [lexLt] at h₁
      | cons b bs => simp [lexLt] at h₂
    | cons c cs => rfl
  | cons a as ih =>
    intro l₂ l₃ h₁ h₂
    cases l₂ with
    | nil => simp [lexLt] at h₁
    | cons b bs =>
      cases l₃ with
      | nil => simp [lexLt] at h₂
      | cons c cs =>
        by_cases hab : a.val.toNat < b.val.toNat <;>
          by_cases hbc : b.val.toNat < c.val.toNat
        · have : a.val.toNat < c.val.toNat := by omega
          simp [lexLt, this]
        · by_cases hcb : c.val.toNat < b.val.toNat
          · simp [lexLt, hbc, hcb] at h₂
          · have : a.val.toNat < c.val.toNat := by omega
            simp [lexLt, this]
        · by_cases hba : b.val.toNat < a.val.toNat
          · simp [lexLt, hab, hba] at h₁
          · have : a.val.toNat < c.val.toNat := by omega
            simp [lexLt, this]
        · by_cases hba : b.val.toNat < a.val.toNat
          · simp [lexLt, hab, hba] at h₁
          · by_cases hcb : c.val.toNat < b.val.toNat
            · simp [lexLt, hbc, hcb] at h₂
            · have hac : ¬ a.val.toNat < c.val.toNat := by omega
              have hca : ¬ c.val.toNat < a.val.toNat := by omega
              simp only [lexLt, if_neg hab, if_neg hba] at h₁
              simp only [lexLt, if_neg hbc, if_neg hcb] at h₂
              simp only [lexLt, if_neg hac, if_neg hca]
              exact ih h₁ h₂

lemma pyLe_iff {a b : String} : pyLe a b ↔ lexLt b.toList a.toList = false := by
  unfold pyLe pyLeB
  cases h : lexLt b.toList a.toList <;> simp

lemma pyLeB_total (a b : String) : pyLeB a b = true ∨ pyLeB b a = true := by
  unfold pyLeB
  by_cases h : lexLt b.toList a.toList = true
  · right
    rw [lexLt_asymm h]
    rfl
  · left
    rw [Bool.not_eq_true] at h
    rw [h]
    rfl

instance : IsTotal String pyLe :=
  ⟨fun a b => pyLeB_total a b⟩

instance : IsTrans String pyLe := by
  constructor
  intro a b c hab hbc
  rw [pyLe_iff] at hab hbc ⊢
  by_contra h
  simp only [Bool.not_eq_false] at h
  by_cases hax : lexLt a.toList b.toList = true
  · have hcb := lexLt_trans h hax
    rw [hcb] at hbc
    exact absurd hbc (by simp)
  · rw [Bool.not_eq_true] at hax
    have heq : a.toList = b.toList := lexLt_eq_of_both_false hax hab
    rw [heq] at h
    rw [h] at hbc
    exact absurd hbc (by simp)

lemma string_eq_of_toList_eq {a b : String} (h : a.toList = b.toList) : a = b :=
  congrArg String.mk h

instance : IsAntisymm String pyLe := by
  constructor
  intro a b hab hba
  rw [pyLe_iff] at hab hba
  exact string_eq_of_toList_eq (lexLt_eq_of_both_false hba hab)

lemma pySorted_perm (l : List String) : (pySorted l).Perm l :=
  List.perm_insertionSort pyLe l

lemma pySorted_sorted (l : List String) : (pySorted l).Sorted pyLe :=
  List.sorted_insertionSort pyLe l

lemma pySorted_eq_of_perm {l₁ l₂ : List String} (h : l₁.Perm l₂) :
    pySorted l₁ = pySorted l₂ :=
  List.eq_of_perm_of_sorted
    (((pySorted_perm l₁).trans h).trans (pySorted_perm l₂).symm)
    (pySorted_sorted l₁) (pySorted_sorted l₂)

lemma pySorted_nodup {l : List String} (h : l.Nodup) : (pySorted l).Nodup :=
  ((pySorted_perm l).nodup_iff).mpr h

lemma mem_pySorted {x : String} {l : List String} : x ∈ pySorted l ↔ x ∈ l :=
  (pySorted_perm l).mem_iff

/-! ## Properties of the chunked slicing -/

lemma chunkList_go_congr (c : Nat) :
    ∀ (f₁ : Nat) (l : List α) (f₂ : Nat), l.length ≤ f₁ → l.length ≤ f₂ →
      chunkList.go c f₁ l = chunkList.go c f₂ l := by
  intro f₁
  induction f₁ with
  | zero =>
    intro l f₂ h₁ _
    have : l = [] := List.eq_nil_of_length_eq_zero (by omega)
    subst this
    cases f₂ <;> rfl
  | succ f ih =>
    intro l f₂ h₁ h₂
    cases l with
    | nil => cases f₂ <;> rfl
    | cons x xs =>
      cases f₂ with
      | zero => simp at h₂
      | succ f₂' =>
        simp only [chunkList.go, List.cons.injEq, true_and]
        apply ih
        · have := List.length_drop (c - 1) xs
          simp at h₁
          omega
        · have := List.length_drop (c - 1) xs
          simp at h₂
          omega

lemma chunkList_cons (c : Nat) (hc : 1 ≤ c) (x : α) (xs : List α) :
    chunkList c (x :: xs) = ((x :: xs).take c) :: chunkList c ((x :: xs).drop c) := by
  have hdrop : (x :: xs).drop c = xs.drop (c - 1) := by
    conv_lhs => rw [show c = (c - 1) + 1 by omega]
    exact List.drop_succ_cons
  unfold chunkList
  simp only [List.length_cons, chunkList.go, hdrop, List.cons.injEq, true_and]
  apply chunkList_go_congr
  · have := List.length_drop (c - 1) xs
    omega
  · exact le_rfl

lemma chunkList_flatten (c : Nat) (hc : 1 ≤ c) :
    ∀ l : List α, (chunkList c l).flatten = l := by
  have main : ∀ (n : Nat) (l : List α), l.length ≤ n → (chunkList c l).flatten = l := by
    intro n
    induction n with
    | zero =>
      intro l h
      have : l = [] := List.eq_nil_of_length_eq_zero (by omega)
      subst this
      rfl
    | succ m ih =>
      intro l h
      cases l with
      | nil => rfl
      | cons x xs =>
        rw [chunkList_cons c hc x xs]
        simp only [List.flatten_cons]
        rw [ih ((x :: xs).drop c) (by
          rw [List.length_drop]
          simp only [List.length_cons] at h ⊢
          omega)]
        exact List.take_append_drop c (x :: xs)
  exact fun l => main l.length l le_rfl

lemma chunkedConcatSort_perm (c : Nat) (hc : 1 ≤ c) :
    ∀ l : List String, (chunkedConcatSort c l).Perm l := by
  have main : ∀ (n : Nat) (l : List String), l.length ≤ n →
      (chunkedConcatSort c l).Perm l := by
    intro n
    induction n with
    | zero =>
      intro l h
      have : l = [] := List.eq_nil_of_length_eq_zero (by omega)
      subst this
      exact List.Perm.refl _
    | succ m ih =>
      intro l h
      cases l with
      | nil => exact List.Perm.refl _
      | cons x xs =>
        unfold chunkedConcatSort
        rw [chunkList_cons c hc x xs]
        simp only [List.map_cons, List.flatten_cons]
        have h₁ : (pySorted ((x :: xs).take c)).Perm ((x :: xs).take c) :=
          pySorted_perm _
        have h₂ : (chunkedConcatSort c ((x :: xs).drop c)).Perm ((x :: xs).drop c) :=
          ih _ (by
            rw [List.length_drop]
            simp only [List.length_cons] at h ⊢
            omega)
        calc (pySorted ((x :: xs).take c) ++
                ((chunkList c ((x :: xs).drop c)).map pySorted).flatten).Perm
              ((x :: xs).take c ++ (x :: xs).drop c) := List.Perm.append h₁ h₂
          _ = x :: xs := List.take_append_drop c (x :: xs)
  exact fun l => main l.length l le_rfl

lemma chunkedConcatSort_nodup (c : Nat) (hc : 1 ≤ c) {l : List String}
    (h : l.Nodup) : (chunkedConcatSort c l).Nodup :=
  ((chunkedConcatSort_perm c hc l).nodup_iff).mpr h

lemma mergeFinalSort_perm (vs : List String) : (mergeFinalSort vs).Perm vs := by
  unfold mergeFinalSort
  by_cases h : vs.length > 10000
  · rw [if_pos h]
    exact chunkedConcatSort_perm 5000 (by omega) vs
  · rw [if_neg h]
    exact pySorted_perm vs

lemma mergeFinalSort_nodup {vs : List String} (h : vs.Nodup) :
    (mergeFinalSort vs).Nodup :=
  ((mergeFinalSort_perm vs).nodup_iff).mpr h

lemma ipFinalSort_perm (l : List String) : (ipFinalSort l).Perm l := by
  unfold ipFinalSort
  by_cases h : l.length > 50000
  · rw [if_pos h]
    exact chunkedConcatSort_perm 10000 (by omega) l
  · rw [if_neg h]
    exact pySorted_perm l

/-! ## The retry loop: invariants -/

lemma runDownloadLoop_stop (outcome : Nat → AttemptOutcome) (maxRetries : Nat)
    (baseDelay : ℚ) (i c : Nat) (hc : c ∈ nonRetryableCodes)
    (hout : outcome i = .httpError c)
    (hretry : ∀ j, j < i → retriesAfter (outcome j)) (hile : i ≤ maxRetries) :
    ∀ (fuel attempt : Nat) (sleeps : List ℚ),
      attempt + fuel = maxRetries + 1 → attempt ≤ i →
      runDownloadLoop outcome maxRetries baseDelay attempt fuel sleeps =
        ⟨false, i + 1, sleeps.reverse ++
          (List.range' attempt (i - attempt)).map (fun j => baseDelay * 2 ^ j)⟩ := by
  intro fuel
  induction fuel with
  | zero =>
    intro attempt sleeps hsum hle
    omega
  | succ f ih =>
    intro attempt sleeps hsum hle
    by_cases heq : attempt = i
    · subst heq
      simp only [runDownloadLoop, hout, if_pos hc]
      simp
    · have hlt : attempt < i := by omega
      have hr := hretry attempt hlt
      have hamr : attempt < maxRetries := by omega
      have hrange : (List.range' attempt (i - attempt)).map (fun j => baseDelay * 2 ^ j) =
          baseDelay * 2 ^ attempt ::
            (List.range' (attempt + 1) (i - (attempt + 1))).map (fun j => baseDelay * 2 ^ j) := by
        rw [show i - attempt = (i - (attempt + 1)) + 1 by omega, List.range'_succ,
          List.map_cons]
      cases houtcome : outcome attempt with
      | success size =>
        rw [houtcome] at hr
        exact absurd hr (by simp [retriesAfter])
      | httpError code =>
        rw [houtcome] at hr
        have hcode : code ∉ nonRetryableCodes := hr
        simp only [runDownloadLoop, houtcome, if_neg hcode, if_pos hamr]
        rw [ih (attempt + 1) (baseDelay * 2 ^ attempt :: sleeps) (by omega) (by omega)]
        simp [hrange, List.append_assoc]
      | urlError =>
        simp only [runDownloadLoop, houtcome, if_pos hamr]
        rw [ih (attempt + 1) (baseDelay * 2 ^ attempt :: sleeps) (by omega) (by omega)]
        simp [hrange, List.append_assoc]
      | otherError =>
        simp only [runDownloadLoop, houtcome, if_pos hamr]
        rw [ih (attempt + 1) (baseDelay * 2 ^ attempt :: sleeps) (by omega) (by omega)]
        simp [hrange, List.append_assoc]

lemma runDownloadLoop_exhaust (outcome : Nat → AttemptOutcome) (maxRetries : Nat)
    (baseDelay : ℚ) (hall : ∀ j, j ≤ maxRetries → retriesAfter (outcome j)) :
    ∀ (fuel attempt : Nat) (sleeps : List ℚ),
      attempt + fuel = maxRetries + 1 →
      runDownloadLoop outcome maxRetries baseDelay attempt fuel sleeps =
        ⟨false, maxRetries + 1, sleeps.reverse ++
          (List.range' attempt (maxRetries - attempt)).map (fun j => baseDelay * 2 ^ j)⟩ := by
  intro fuel
  induction fuel with
  | zero =>
    intro attempt sleeps hsum
    have : attempt = maxRetries + 1 := by omega
    subst this
    simp [runDownloadLoop]
  | succ f ih =>
    intro attempt sleeps hsum
    have hle : attempt ≤ maxRetries := by omega
    have hr := hall attempt hle
    by_cases hlast : attempt < maxRetries
    · have hrange : (List.range' attempt (maxRetries - attempt)).map
          (fun j => baseDelay * 2 ^ j) =
          baseDelay * 2 ^ attempt ::
            (List.range' (attempt + 1) (maxRetries - (attempt + 1))).map
              (fun j => baseDelay * 2 ^ j) := by
        rw [show maxRetries - attempt = (maxRetries - (attempt + 1)) + 1 by omega,
          List.range'_succ, List.map_cons]
      cases houtcome : outcome attempt with
      | success size =>
        rw [houtcome] at hr
        exact absurd hr (by simp [retriesAfter])
      | httpError code =>
        rw [houtcome] at hr
        simp only [runDownloadLoop, houtcome, if_neg hr, if_pos hlast]
        rw [ih (attempt + 1) (baseDelay * 2 ^ attempt :: sleeps) (by omega)]
        simp [hrange, List.append_assoc]
      | urlError =>
        simp only [runDownloadLoop, houtcome, if_pos hlast]
        rw [ih (attempt + 1) (baseDelay * 2 ^ attempt :: sleeps) (by omega)]
        simp [hrange, List.append_assoc]
      | otherError =>
        simp only [runDownloadLoop, houtcome, if_pos hlast]
        rw [ih (attempt + 1) (baseDelay * 2 ^ attempt :: sleeps) (by omega)]
        simp [hrange, List.append_assoc]
    · have heq : attempt = maxRetries := by omega
      subst heq
      cases houtcome : outcome attempt with
      | success size =>
        rw [houtcome] at hr
        exact absurd hr (by simp [retriesAfter])
      | httpError code =>
        rw [houtcome] at hr
        simp only [runDownloadLoop, houtcome, if_neg hr, if_neg hlast]
        simp
      | urlError =>
        simp only [runDownloadLoop, houtcome, if_neg hlast]
        simp
      | otherError =>
        simp only [runDownloadLoop, houtcome, if_neg hlast]
        simp

lemma runDownloadLoop_bound (outcome : Nat → AttemptOutcome) (maxRetries : Nat)
    (baseDelay : ℚ) :
    ∀ (fuel attempt : Nat) (sleeps : List ℚ),
      (runDownloadLoop outcome maxRetries baseDelay attempt fuel sleeps).attemptsMade ≤
        attempt + fuel := by
  intro fuel
  induction fuel with
  | zero =>
    intro attempt sleeps
    simp [runDownloadLoop]
  | succ f ih =>
    intro attempt sleeps
    cases houtcome : outcome attempt with
    | success size =>
      by_cases hs : 0 < size
      · simp only [runDownloadLoop, houtcome, if_pos hs]
        omega
      · simp only [runDownloadLoop, houtcome, if_neg hs]
        have := ih (attempt + 1) sleeps
        omega
    | httpError code =>
      by_cases hcode : code ∈ nonRetryableCodes
      · simp only [runDownloadLoop, houtcome, if_pos hcode]
        omega
      · by_cases hlt : attempt < maxRetries
        · simp only [runDownloadLoop, houtcome, if_neg hcode, if_pos hlt]
          have := ih (attempt + 1) (baseDelay * 2 ^ attempt :: sleeps)
          omega
        · simp only [runDownloadLoop, houtcome, if_neg hcode, if_neg hlt]
          omega
    | urlError =>
      by_cases hlt : attempt < maxRetries
      · simp only [runDownloadLoop, houtcome, if_pos hlt]
        have := ih (attempt + 1) (baseDelay * 2 ^ attempt :: sleeps)
        omega
      · simp only [runDownloadLoop, houtcome, if_neg hlt]
        omega
    | otherError =>
      by_cases hlt : attempt < maxRetries
      · simp only [runDownloadLoop, houtcome, if_pos hlt]
        have := ih (attempt + 1) (baseDelay * 2 ^ attempt :: sleeps)
        omega
      · simp only [runDownloadLoop, houtcome, if_neg hlt]
        omega

/-! ## Claim theorems: network behaviour -/

/-- Claim C5: in `download_file`, an HTTP error with code 400, 401, 403,
404 or 410 is never retried and fails the fetch at once, while every other
network/HTTP error is retried with exponential backoff
`baseDelay * 2 ^ attempt`, for at most `maxRetries + 1` total attempts,
before the download is reported failed. -/
theorem download_retry_policy :
    (∀ (outcome : Nat → AttemptOutcome) (maxRetries : Nat) (baseDelay : ℚ)
        (i c : Nat), c ∈ nonRetryableCodes → outcome i = .httpError c →
        i ≤ maxRetries → (∀ j, j < i → retriesAfter (outcome j)) →
        runDownload outcome maxRetries baseDelay =
          ⟨false, i + 1, (List.range i).map (fun j => baseDelay * 2 ^ j)⟩) ∧
    (∀ (outcome : Nat → AttemptOutcome) (maxRetries : Nat) (baseDelay : ℚ),
        (∀ j, j ≤ maxRetries → retriesAfter (outcome j)) →
        runDownload outcome maxRetries baseDelay =
          ⟨false, maxRetries + 1,
            (List.range maxRetries).map (fun j => baseDelay * 2 ^ j)⟩) ∧
    (∀ (outcome : Nat → AttemptOutcome) (maxRetries : Nat) (baseDelay : ℚ),
        (runDownload outcome maxRetries baseDelay).attemptsMade ≤ maxRetries + 1) := by
  refine ⟨?_, ?_, ?_⟩
  · intro outcome maxRetries baseDelay i c hc hout hile hretry
    unfold runDownload
    rw [runDownloadLoop_stop outcome maxRetries baseDelay i c hc hout hretry hile
      (maxRetries + 1) 0 [] (by omega) (by omega)]
    rw [List.range_eq_range']
    simp
  · intro outcome maxRetries baseDelay hall
    unfold runDownload
    rw [runDownloadLoop_exhaust outcome maxRetries baseDelay hall
      (maxRetries + 1) 0 [] (by omega)]
    rw [List.range_eq_range']
    simp
  · intro outcome maxRetries baseDelay
    unfold runDownload
    have := runDownloadLoop_bound outcome maxRetries baseDelay (maxRetries + 1) 0 []
    omega

/-- Witness for C5: a 404 on the first attempt stops a 3-retry download
after one attempt with no sleeps; a connection error on every attempt
exhausts a 1-retry download after two attempts with one backoff sleep. -/
theorem download_retry_policy_witness :
    runDownload (fun _ => .httpError 404) 3 1 =
      ⟨false, 0 + 1, (List.range 0).map (fun j => (1 : ℚ) * 2 ^ j)⟩ ∧
    runDownload (fun _ => .urlError) 1 1 =
      ⟨false, 1 + 1, (List.range 1).map (fun j => (1 : ℚ) * 2 ^ j)⟩ := by
  constructor
  · exact download_retry_policy.1 (fun _ => .httpError 404) 3 1 0 404
      (by decide) rfl (by omega) (fun j hj => absurd hj (by omega))
  · exact download_retry_policy.2.1 (fun _ => .urlError) 1 1
      (fun j _ => by simp [retriesAfter])

/-- Claim C6: the cache lookup reports a valid entry exactly when the
cache file exists, has size greater than zero and age strictly below the
TTL; an invalid (missing, zero-byte or expired) entry makes the fetch fall
through to network retrieval rather than raising. -/
theorem cache_validity_and_fallthrough :
    (∀ (entry : Option CacheFile) (now ttl : Int),
      isCacheValid entry now ttl = true ↔
        ∃ c, entry = some c ∧ 0 < c.sizeBytes ∧ now - c.mtime < ttl) ∧
    (∀ env : DlEnv, isCacheValid env.cacheEntry env.now env.ttl = false →
      (downloadWithProgress env).usedNetwork = true ∧
      (downloadWithProgress env).raised =
        (match env.net with | .fail _ _ => true | .ok _ => false)) := by
  constructor
  · intro entry now ttl
    cases entry with
    | none => simp [isCacheValid]
    | some c =>
      by_cases hz : c.sizeBytes = 0
      · simp [isCacheValid, hz]
      · simp only [isCacheValid, if_neg hz, decide_eq_true_eq, Option.some.injEq]
        constructor
        · intro h
          exact ⟨c, rfl, by omega, h⟩
        · rintro ⟨c', rfl, -, h⟩
          exact h
  · intro env hinvalid
    obtain ⟨uc, ce, cnow, cttl, cok, sr, ds, ssr, rh, net⟩ := env
    have hcond : ¬(uc = true ∧ isCacheValid ce cnow cttl = true ∧ cok = true) := by
      rintro ⟨-, h, -⟩
      rw [h] at hinvalid
      cases hinvalid
    cases net with
    | ok bytes =>
      dsimp only [downloadWithProgress]
      rw [if_neg (by simpa using hcond)]
      exact ⟨rfl, rfl⟩
    | fail p ah =>
      dsimp only [downloadWithProgress]
      rw [if_neg (by simpa using hcond)]
      constructor
      · split
        · rfl
        · split <;> rfl
      · split
        · rfl
        · split <;> rfl

/-- Witness for C6: a zero-byte entry and an expired entry are both
invalid, and an environment holding the expired entry goes to the network
and succeeds there. -/
theorem cache_validity_witness :
    (isCacheValid (some ⟨0, 5⟩) 10 24 = true ↔
      ∃ c, (some (⟨0, 5⟩ : CacheFile)) = some c ∧ 0 < c.sizeBytes ∧ 10 - c.mtime < 24) ∧
    (downloadWithProgress
      ⟨true, some ⟨7, 5⟩, 40, 24, true, true, none, false, false, .ok 100⟩).usedNetwork =
        true := by
  constructor
  · exact cache_validity_and_fallthrough.1 (some ⟨0, 5⟩) 10 24
  · exact (cache_validity_and_fallthrough.2
      ⟨true, some ⟨7, 5⟩, 40, 24, true, true, none, false, false, .ok 100⟩
      (by decide)).1

/-- Claim C10: when a `_download_with_progress` attempt that started from
byte offset zero raises, the partially written destination file has been
deleted: no partial file remains at the destination path. -/
theorem failed_fresh_attempt_leaves_no_file (env : DlEnv)
    (h0 : resumePosOf env = 0)
    (hraised : (downloadWithProgress env).raised = true) :
    (downloadWithProgress env).dest = none := by
  obtain ⟨uc, ce, cnow, cttl, cok, sr, ds, ssr, rh, net⟩ := env
  by_cases hcond : uc = true ∧ isCacheValid ce cnow cttl = true ∧ cok = true
  · dsimp only [downloadWithProgress] at hraised
    rw [if_pos (by simpa using hcond)] at hraised
    cases hraised
  · cases net with
    | ok bytes =>
      dsimp only [downloadWithProgress] at hraised
      rw [if_neg (by simpa using hcond)] at hraised
      cases hraised
    | fail p ah =>
      dsimp only [downloadWithProgress]
      rw [if_neg (by simpa using hcond)]
      rw [if_pos (by rw [h0]; simp)]

/-- Witness for C10: a fresh (resume-disabled) attempt over an existing
5-byte file that fails mid-stream leaves no destination file. -/
theorem failed_fresh_attempt_witness :
    (downloadWithProgress
      ⟨false, none, 0, 24, true, false, some 5, true, false, .fail 42 true⟩).dest =
        none :=
  failed_fresh_attempt_leaves_no_file
    ⟨false, none, 0, 24, true, false, some 5, true, false, .fail 42 true⟩
    (by decide) (by decide)

/-! ## The filter: batching has no effect -/

lemma filterValuesBatched_eq : ∀ vs : List JVal,
    filterValuesBatched vs = vs.filter (fun v => !(shouldFilterRuleValue v)) := by
  have main : ∀ (n : Nat) (vs : List JVal), vs.length ≤ n →
      filterValuesBatched vs = vs.filter (fun v => !(shouldFilterRuleValue v)) := by
    intro n
    induction n with
    | zero =>
      intro vs h
      have : vs = [] := List.eq_nil_of_length_eq_zero (by omega)
      subst this
      rfl
    | succ m ih =>
      intro vs h
      cases vs with
      | nil => rfl
      | cons x xs =>
        unfold filterValuesBatched
        rw [chunkList_cons 1000 (by omega) x xs]
        simp only [List.map_cons, List.flatten_cons]
        have := ih ((x :: xs).drop 1000) (by
          rw [List.length_drop]
          simp only [List.length_cons] at h ⊢
          omega)
        unfold filterValuesBatched at this
        rw [this]
        rw [← List.filter_append]
        rw [List.take_append_drop]
  exact fun vs => main vs.length vs le_rfl

lemma filter_partition_length (p : JVal → Bool) : ∀ vs : List JVal,
    (vs.filter (fun v => p v)).length + (vs.filter (fun v => !(p v))).length =
      vs.length := by
  intro vs
  induction vs with
  | nil => rfl
  | cons x xs ih =>
    by_cases h : p x = true
    · rw [List.filter_cons, List.filter_cons, if_pos (by simpa using h),
        if_neg (by simp [h])]
      simp only [List.length_cons]
      omega
    · have h' : p x = false := by simpa using h
      rw [List.filter_cons, List.filter_cons, if_neg (by simp [h']),
        if_pos (by simp [h'])]
      simp only [List.length_cons]
      omega

lemma count_removed_eq (vs : List JVal) :
    vs.length - (vs.filter (fun v => !(shouldFilterRuleValue v))).length =
      (vs.filter (fun v => shouldFilterRuleValue v)).length := by
  have h := filter_partition_length shouldFilterRuleValue vs
  omega

lemma filterRuleFields_eq : ∀ fields : List (String × JVal),
    filterRuleFields fields = (filterFieldsRef fields, countRemovedFields fields) := by
  intro fields
  induction fields with
  | nil => rfl
  | cons p rest ih =>
    obtain ⟨rt, v⟩ := p
    cases v with
    | arr vs =>
      simp only [filterRuleFields, ih, filterFieldsRef, countRemovedFields,
        List.filterMap_cons, List.map_cons, List.sum_cons, filterValuesBatched_eq]
      by_cases hk : (vs.filter (fun v => !(shouldFilterRuleValue v))).isEmpty = true
      · rw [if_pos hk, if_pos hk]
        rw [count_removed_eq]
      · rw [if_neg hk, if_neg hk]
        rw [count_removed_eq]
    | str s =>
      simp only [filterRuleFields, ih, filterFieldsRef, countRemovedFields,
        List.filterMap_cons, List.map_cons, List.sum_cons]
      exact Prod.ext rfl (by dsimp; omega)
    | num n =>
      simp only [filterRuleFields, ih, filterFieldsRef, countRemovedFields,
        List.filterMap_cons, List.map_cons, List.sum_cons]
      exact Prod.ext rfl (by dsimp; omega)
    | bool b =>
      simp only [filterRuleFields, ih, filterFieldsRef, countRemovedFields,
        List.filterMap_cons, List.map_cons, List.sum_cons]
      exact Prod.ext rfl (by dsimp; omega)
    | null =>
      simp only [filterRuleFields, ih, filterFieldsRef, countRemovedFields,
        List.filterMap_cons, List.map_cons, List.sum_cons]
      exact Prod.ext rfl (by dsimp; omega)
    | obj fs =>
      simp only [filterRuleFields, ih, filterFieldsRef, countRemovedFields,
        List.filterMap_cons, List.map_cons, List.sum_cons]
      exact Prod.ext rfl (by dsimp; omega)

lemma filterRuleStep_shift : ∀ (l : List JVal) (x : List JVal) (y : Nat),
    l.foldr filterRuleStep (x, y) =
      ((l.foldr filterRuleStep ([], 0)).1 ++ x, (l.foldr filterRuleStep ([], 0)).2 + y) := by
  intro l
  induction l with
  | nil => intro x y; simp
  | cons r t ih =>
    intro x y
    simp only [List.foldr_cons]
    rw [ih x y]
    cases r with
    | obj fields =>
      simp only [filterRuleStep]
      rcases hf : filterRuleFields fields with ⟨kf, cnt⟩
      by_cases hk : kf.isEmpty = true
      · simp only [if_pos hk]
        exact Prod.ext rfl (by dsimp; omega)
      · simp only [if_neg hk]
        exact Prod.ext (by simp) (by dsimp; omega)
    | str s => rfl
    | num n => rfl
    | bool b => rfl
    | null => rfl
    | arr xs => rfl

lemma filterRules_eq_foldr : ∀ rules : List JVal,
    filterRules rules = rules.foldr filterRuleStep ([], 0) := by
  have main : ∀ (n : Nat) (rules : List JVal), rules.length ≤ n →
      filterRules rules = rules.foldr filterRuleStep ([], 0) := by
    intro n
    induction n with
    | zero =>
      intro rules h
      have : rules = [] := List.eq_nil_of_length_eq_zero (by omega)
      subst this
      rfl
    | succ m ih =>
      intro rules h
      cases rules with
      | nil => rfl
      | cons x xs =>
        unfold filterRules
        rw [chunkList_cons 100 (by omega) x xs]
        conv_rhs => rw [← List.take_append_drop 100 (x :: xs)]
        rw [List.foldr_append, filterRuleStep_shift]
        have htail := ih ((x :: xs).drop 100) (by
          rw [List.length_drop]
          simp only [List.length_cons] at h ⊢
          omega)
        unfold filterRules at htail
        simp only [List.map_cons, List.foldr_cons]
        rw [htail]
  exact fun rules => main rules.length rules le_rfl

lemma filterRules_eq_ref : ∀ rules : List JVal, filterRules rules = filterRulesRef rules := by
  intro rules
  rw [filterRules_eq_foldr]
  induction rules with
  | nil => rfl
  | cons r t ih =>
    simp only [List.foldr_cons, ih]
    cases r with
    | obj fields =>
      simp only [filterRuleStep, filterRuleFields_eq, filterRulesRef,
        List.filterMap_cons, List.map_cons, List.sum_cons]
      by_cases hk : (filterFieldsRef fields).isEmpty = true
      · have : filterFieldsRef fields = [] := by
          cases hfe : filterFieldsRef fields
          · rfl
          · rw [hfe] at hk
            cases hk
        rw [if_pos hk, this]
        simp only [List.isEmpty_nil]
        exact Prod.ext rfl (by dsimp [filterRulesRef]; try omega)
      · have hne : filterFieldsRef fields ≠ [] := by
          intro hfe
          rw [hfe] at hk
          exact hk rfl
        rw [if_neg hk]
        cases hfe : filterFieldsRef fields with
        | nil => exact absurd hfe hne
        | cons a b =>
          simp only [filterRulesRef] at ih ⊢
          exact Prod.ext (by simp) (by dsimp; try omega)
    | str s =>
      simp only [filterRuleStep, filterRulesRef, List.filterMap_cons, List.map_cons,
        List.sum_cons]
      exact Prod.ext rfl (by dsimp [filterRulesRef]; omega)
    | num n =>
      simp only [filterRuleStep, filterRulesRef, List.filterMap_cons, List.map_cons,
        List.sum_cons]
      exact Prod.ext rfl (by dsimp [filterRulesRef]; omega)
    | bool b =>
      simp only [filterRuleStep, filterRulesRef, List.filterMap_cons, List.map_cons,
        List.sum_cons]
      exact Prod.ext rfl (by dsimp [filterRulesRef]; omega)
    | null =>
      simp only [filterRuleStep, filterRulesRef, List.filterMap_cons, List.map_cons,
        List.sum_cons]
      exact Prod.ext rfl (by dsimp [filterRulesRef]; omega)
    | arr xs =>
      simp only [filterRuleStep, filterRulesRef, List.filterMap_cons, List.map_cons,
        List.sum_cons]
      exact Prod.ext rfl (by dsimp [filterRulesRef]; omega)

/-! ## Claim theorems: the rule filter -/

/-- Claim C4: `filter_rules` removes exactly the scalar values matching a
denylist substring case-insensitively (`shouldFilterRuleValue`), drops
every ruleType entry left without values (no empty entry appears in the
output), and returns the number of removed values; in particular the value
`"ruleset.skk.moe"` under ruleType `domain` is absent from the output and
counted, with `filteredCount = 1`. -/
theorem filter_rules_spec :
    (∀ rules : List JVal, filterRules rules = filterRulesRef rules) ∧
    (∀ (rules : List JVal) (r : JVal), r ∈ (filterRules rules).1 →
      ∃ fields, r = JVal.obj fields ∧ fields ≠ [] ∧
        ∀ p ∈ fields, ∃ vs, p.2 = JVal.arr vs ∧ vs ≠ [] ∧
          ∀ v ∈ vs, shouldFilterRuleValue v = false) ∧
    (filterRules [.obj [("domain", .arr [.str "ruleset.skk.moe", .str "example.com"])]] =
      ([.obj [("domain", .arr [.str "example.com"])]], 1)) := by
  refine ⟨filterRules_eq_ref, ?_, rfl⟩
  intro rules r hr
  rw [filterRules_eq_ref] at hr
  unfold filterRulesRef at hr
  dsimp at hr
  obtain ⟨rule, -, hrule⟩ := List.mem_filterMap.mp hr
  cases rule with
  | obj fields0 =>
    dsimp at hrule
    by_cases hk : (filterFieldsRef fields0).isEmpty = true
    · rw [if_pos hk] at hrule
      cases hrule
    · rw [if_neg hk] at hrule
      obtain rfl : JVal.obj (filterFieldsRef fields0) = r := Option.some.inj hrule
      refine ⟨filterFieldsRef fields0, rfl, ?_, ?_⟩
      · intro hfe
        rw [hfe] at hk
        exact hk rfl
      · intro p hp
        unfold filterFieldsRef at hp
        obtain ⟨q, -, hq⟩ := List.mem_filterMap.mp hp
        cases hqv : q.2 with
        | arr vs0 =>
          rw [hqv] at hq
          dsimp at hq
          by_cases hke : (vs0.filter (fun v => !(shouldFilterRuleValue v))).isEmpty = true
          · rw [if_pos hke] at hq
            cases hq
          · rw [if_neg hke] at hq
            obtain rfl : (q.1, JVal.arr (vs0.filter (fun v => !(shouldFilterRuleValue v)))) = p :=
              Option.some.inj hq
            refine ⟨vs0.filter (fun v => !(shouldFilterRuleValue v)), rfl, ?_, ?_⟩
            · intro hfe
              rw [hfe] at hke
              exact hke rfl
            · intro v hv
              have := List.of_mem_filter hv
              simpa using this
        | str s => rw [hqv] at hq; cases hq
        | num n => rw [hqv] at hq; cases hq
        | bool b => rw [hqv] at hq; cases hq
        | null => rw [hqv] at hq; cases hq
        | obj fs => rw [hqv] at hq; cases hq
  | str s => cases hrule
  | num n => cases hrule
  | bool b => cases hrule
  | null => cases hrule
  | arr xs => cases hrule

/-- Witness for C4: in the filtered scenario-C ruleset, the surviving rule
object consists of non-empty list fields whose values all pass the
denylist check. -/
theorem filter_rules_witness :
    ∃ fields, JVal.obj [("domain", JVal.arr [JVal.str "example.com"])] = JVal.obj fields ∧
      fields ≠ [] ∧ ∀ p ∈ fields, ∃ vs, p.2 = JVal.arr vs ∧ vs ≠ [] ∧
        ∀ v ∈ vs, shouldFilterRuleValue v = false :=
  filter_rules_spec.2.1
    [.obj [("domain", .arr [.str "ruleset.skk.moe", .str "example.com"])]]
    (JVal.obj [("domain", JVal.arr [JVal.str "example.com"])])
    (List.mem_singleton.mpr rfl)

/-! ## Merge accumulator: membership and duplicate-freeness -/

lemma addRuleValues_eq (vals : List JVal) (g : List String) :
    addRuleValues vals g = vals.foldl
      (fun g v => match v with | .str s => insertValue s g | _ => g) g := by
  unfold addRuleValues
  rw [chunkList_flatten 1000 (by omega)]

lemma mem_insertValue {x v : String} {g : List String} :
    x ∈ insertValue v g ↔ x ∈ g ∨ x = v := by
  unfold insertValue
  by_cases h : v ∈ g
  · rw [if_pos h]
    constructor
    · exact Or.inl
    · rintro (hx | rfl)
      · exact hx
      · exact h
  · rw [if_neg h]
    simp

lemma insertValue_nodup {v : String} {g : List String} (h : g.Nodup) :
    (insertValue v g).Nodup := by
  unfold insertValue
  by_cases hv : v ∈ g
  · rw [if_pos hv]
    exact h
  · rw [if_neg hv]
    exact List.Nodup.append h (List.nodup_singleton v)
      (fun a ha ha' => hv (by rwa [List.mem_singleton.mp ha'] at ha))

lemma mem_addRuleValues {x : String} : ∀ (vals : List JVal) (g : List String),
    x ∈ addRuleValues vals g ↔ x ∈ g ∨ JVal.str x ∈ vals := by
  intro vals
  induction vals with
  | nil =>
    intro g
    rw [addRuleValues_eq]
    simp
  | cons v t ih =>
    intro g
    simp only [addRuleValues_eq] at ih ⊢
    simp only [List.foldl_cons]
    cases v with
    | str s =>
      rw [ih (insertValue s g)]
      simp only [mem_insertValue, List.mem_cons, JVal.str.injEq]
      tauto
    | num n => rw [ih g]; simp
    | bool b => rw [ih g]; simp
    | null => rw [ih g]; simp
    | arr xs => rw [ih g]; simp
    | obj fs => rw [ih g]; simp

lemma addRuleValues_nodup : ∀ (vals : List JVal) {g : List String},
    g.Nodup → (addRuleValues vals g).Nodup := by
  intro vals
  induction vals with
  | nil =>
    intro g h
    rw [addRuleValues_eq]
    exact h
  | cons v t ih =>
    intro g h
    simp only [addRuleValues_eq] at ih ⊢
    simp only [List.foldl_cons]
    cases v with
    | str s => exact ih (insertValue_nodup h)
    | num n => exact ih h
    | bool b => exact ih h
    | null => exact ih h
    | arr xs => exact ih h
    | obj fs => exact ih h

lemma groupKeys_mem_iff {rt : String} : ∀ gs : RuleGroups,
    (gs.any (fun p => p.1 = rt)) = true ↔ rt ∈ groupKeys gs := by
  intro gs
  induction gs with
  | nil => simp [groupKeys]
  | cons p rest ih =>
    simp only [List.any_cons, Bool.or_eq_true, decide_eq_true_eq, groupKeys,
      List.map_cons, List.mem_cons, ih]
    constructor
    · rintro (h | h)
      · exact Or.inl h.symm
      · exact Or.inr h
    · rintro (h | h)
      · exact Or.inl h.symm
      · exact Or.inr h

lemma groupVals_ensureGroup (rt' rt : String) (gs : RuleGroups) :
    groupVals (ensureGroup rt' gs) rt = groupVals gs rt := by
  unfold ensureGroup
  by_cases h : (gs.any (fun p => p.1 = rt')) = true
  · rw [if_pos h]
  · rw [if_neg h]
    induction gs with
    | nil =>
      simp only [List.nil_append]
      by_cases hrr : rt' = rt <;> simp [groupVals, hrr]
    | cons p rest ih =>
      simp only [List.any_cons, Bool.or_eq_true, decide_eq_true_eq] at h
      push_neg at h
      simp only [List.cons_append]
      unfold groupVals
      by_cases hp : p.1 = rt
      · obtain ⟨k, vs⟩ := p
        simp only at hp
        rw [if_pos hp, if_pos hp]
      · obtain ⟨k, vs⟩ := p
        simp only at hp
        rw [if_neg hp, if_neg hp]
        exact ih (by simpa using h.2)

lemma mem_groupKeys_ensureGroup (rt : String) (gs : RuleGroups) :
    rt ∈ groupKeys (ensureGroup rt gs) := by
  unfold ensureGroup
  by_cases h : (gs.any (fun p => p.1 = rt)) = true
  · rw [if_pos h]
    exact (groupKeys_mem_iff gs).mp h
  · rw [if_neg h]
    unfold groupKeys
    simp

lemma groupKeys_ensureGroup (rt' : String) (gs : RuleGroups) :
    groupKeys (ensureGroup rt' gs) = groupKeys gs ∨
      groupKeys (ensureGroup rt' gs) = groupKeys gs ++ [rt'] := by
  unfold ensureGroup
  by_cases h : (gs.any (fun p => p.1 = rt')) = true
  · rw [if_pos h]
    exact Or.inl rfl
  · rw [if_neg h]
    right
    unfold groupKeys
    simp

lemma groupVals_updateGroup_self {rt : String} (f : List String → List String) :
    ∀ gs : RuleGroups, rt ∈ groupKeys gs →
      groupVals (updateGroup rt f gs) rt = f (groupVals gs rt) := by
  intro gs
  induction gs with
  | nil => simp [groupKeys]
  | cons p rest ih =>
    intro hmem
    obtain ⟨k, vs⟩ := p
    unfold updateGroup
    by_cases hk : k = rt
    · rw [if_pos hk]
      unfold groupVals
      rw [if_pos hk, if_pos hk]
    · rw [if_neg hk]
      unfold groupVals
      rw [if_neg hk, if_neg hk]
      apply ih
      simp only [groupKeys, List.map_cons, List.mem_cons] at hmem
      rcases hmem with h | h
      · exact absurd h.symm hk
      · exact h

lemma groupVals_updateGroup_other {rt' rt : String} (hne : rt' ≠ rt)
    (f : List String → List String) :
    ∀ gs : RuleGroups, groupVals (updateGroup rt' f gs) rt = groupVals gs rt := by
  intro gs
  induction gs with
  | nil => rfl
  | cons p rest ih =>
    obtain ⟨k, vs⟩ := p
    unfold updateGroup
    by_cases hk : k = rt'
    · rw [if_pos hk]
      unfold groupVals
      by_cases hr : k = rt
      · exact absurd (hr ▸ hk.symm ▸ rfl : rt' = rt) (by rw [← hk] at hne; exact fun hh => hne (hk ▸ hh))
      · rw [if_neg hr, if_neg hr]
    · rw [if_neg hk]
      unfold groupVals
      by_cases hr : k = rt
      · rw [if_pos hr, if_pos hr]
      · rw [if_neg hr, if_neg hr]
        exact ih

lemma groupKeys_updateGroup (rt' : String) (f : List String → List String) :
    ∀ gs : RuleGroups, groupKeys (updateGroup rt' f gs) = groupKeys gs := by
  intro gs
  induction gs with
  | nil => rfl
  | cons p rest ih =>
    obtain ⟨k, vs⟩ := p
    unfold updateGroup
    by_cases hk : k = rt'
    · rw [if_pos hk]
      rfl
    · rw [if_neg hk]
      unfold groupKeys
      simp only [List.map_cons]
      unfold groupKeys at ih
      rw [ih]

lemma groupVals_foldField_arr {k rt : String} {vals : List JVal} (gs : RuleGroups) :
    groupVals (foldField gs (k, JVal.arr vals)) rt =
      if k = rt then addRuleValues vals (groupVals gs rt) else groupVals gs rt := by
  unfold foldField
  by_cases h : k = rt
  · rw [if_pos h, h]
    rw [groupVals_updateGroup_self _ _ (mem_groupKeys_ensureGroup rt gs)]
    rw [groupVals_ensureGroup]
  · rw [if_neg h]
    rw [groupVals_updateGroup_other h _, groupVals_ensureGroup]

lemma mem_groupKeys_foldField_arr {k rt : String} {vals : List JVal} (gs : RuleGroups) :
    rt ∈ groupKeys (foldField gs (k, JVal.arr vals)) ↔
      rt ∈ groupKeys gs ∨ rt = k := by
  unfold foldField
  simp only
  rw [groupKeys_updateGroup]
  rcases groupKeys_ensureGroup k gs with h | h
  · rw [h]
    constructor
    · exact Or.inl
    · rintro (hh | heq)
      · exact hh
      · rw [heq]
        have h2 := mem_groupKeys_ensureGroup k gs
        rwa [h] at h2
  · rw [h]
    simp only [List.mem_append, List.mem_singleton]

lemma mem_groupVals_foldFields {x rt : String} :
    ∀ (fields : List (String × JVal)) (gs : RuleGroups),
      x ∈ groupVals (fields.foldl foldField gs) rt ↔
        x ∈ groupVals gs rt ∨ ∃ vs, (rt, JVal.arr vs) ∈ fields ∧ JVal.str x ∈ vs := by
  intro fields
  induction fields with
  | nil => intro gs; simp
  | cons p rest ih =>
    intro gs
    obtain ⟨k, v⟩ := p
    simp only [List.foldl_cons]
    rw [ih]
    cases v with
    | arr vals =>
      rw [groupVals_foldField_arr]
      by_cases hk : k = rt
      · subst hk
        rw [if_pos rfl, mem_addRuleValues]
        simp only [List.mem_cons, Prod.mk.injEq, JVal.arr.injEq]
        constructor
        · rintro ((h | h) | ⟨vs, hvs, hx⟩)
          · exact Or.inl h
          · exact Or.inr ⟨vals, Or.inl (by simp), h⟩
          · exact Or.inr ⟨vs, Or.inr hvs, hx⟩
        · rintro (h | ⟨vs, (⟨-, rfl⟩ | hvs), hx⟩)
          · exact Or.inl (Or.inl h)
          · exact Or.inl (Or.inr hx)
          · exact Or.inr ⟨vs, hvs, hx⟩
      · rw [if_neg hk]
        simp only [List.mem_cons, Prod.mk.injEq, JVal.arr.injEq]
        constructor
        · rintro (h | ⟨vs, hvs, hx⟩)
          · exact Or.inl h
          · exact Or.inr ⟨vs, Or.inr hvs, hx⟩
        · rintro (h | ⟨vs, (⟨hrt, -⟩ | hvs), hx⟩)
          · exact Or.inl h
          · exact absurd hrt.symm hk
          · exact Or.inr ⟨vs, hvs, hx⟩
    | str s =>
      show (x ∈ groupVals gs rt ∨ _) ↔ _
      simp only [List.mem_cons, Prod.mk.injEq]
      constructor
      · rintro (h | ⟨vs, hvs, hx⟩)
        · exact Or.inl h
        · exact Or.inr ⟨vs, Or.inr hvs, hx⟩
      · rintro (h | ⟨vs, (⟨-, hne⟩ | hvs), hx⟩)
        · exact Or.inl h
        · cases hne
        · exact Or.inr ⟨vs, hvs, hx⟩
    | num n =>
      show (x ∈ groupVals gs rt ∨ _) ↔ _
      simp only [List.mem_cons, Prod.mk.injEq]
      constructor
      · rintro (h | ⟨vs, hvs, hx⟩)
        · exact Or.inl h
        · exact Or.inr ⟨vs, Or.inr hvs, hx⟩
      · rintro (h | ⟨vs, (⟨-, hne⟩ | hvs), hx⟩)
        · exact Or.inl h
        · cases hne
        · exact Or.inr ⟨vs, hvs, hx⟩
    | bool b =>
      show (x ∈ groupVals gs rt ∨ _) ↔ _
      simp only [List.mem_cons, Prod.mk.injEq]
      constructor
      · rintro (h | ⟨vs, hvs, hx⟩)
        · exact Or.inl h
        · exact Or.inr ⟨vs, Or.inr hvs, hx⟩
      · rintro (h | ⟨vs, (⟨-, hne⟩ | hvs), hx⟩)
        · exact Or.inl h
        · cases hne
        · exact Or.inr ⟨vs, hvs, hx⟩
    | null =>
      show (x ∈ groupVals gs rt ∨ _) ↔ _
      simp only [List.mem_cons, Prod.mk.injEq]
      constructor
      · rintro (h | ⟨vs, hvs, hx⟩)
        · exact Or.inl h
        · exact Or.inr ⟨vs, Or.inr hvs, hx⟩
      · rintro (h | ⟨vs, (⟨-, hne⟩ | hvs), hx⟩)
        · exact Or.inl h
        · cases hne
        · exact Or.inr ⟨vs, hvs, hx⟩
    | obj fs =>
      show (x ∈ groupVals gs rt ∨ _) ↔ _
      simp only [List.mem_cons, Prod.mk.injEq]
      constructor
      · rintro (h | ⟨vs, hvs, hx⟩)
        · exact Or.inl h
        · exact Or.inr ⟨vs, Or.inr hvs, hx⟩
      · rintro (h | ⟨vs, (⟨-, hne⟩ | hvs), hx⟩)
        · exact Or.inl h
        · cases hne
        · exact Or.inr ⟨vs, hvs, hx⟩

lemma mem_groupKeys_foldFields {rt : String} :
    ∀ (fields : List (String × JVal)) (gs : RuleGroups),
      rt ∈ groupKeys (fields.foldl foldField gs) ↔
        rt ∈ groupKeys gs ∨ ∃ v, (rt, v) ∈ fields ∧ ∃ vs, v = JVal.arr vs := by
  intro fields
  induction fields with
  | nil => intro gs; simp
  | cons p rest ih =>
    intro gs
    obtain ⟨k, v⟩ := p
    simp only [List.foldl_cons]
    rw [ih]
    cases v with
    | arr vals =>
      rw [mem_groupKeys_foldField_arr]
      simp only [List.mem_cons, Prod.mk.injEq]
      constructor
      · rintro ((h | heq) | ⟨v', hv', vs, hvs⟩)
        · exact Or.inl h
        · exact Or.inr ⟨JVal.arr vals, Or.inl (by simp [heq]), vals, rfl⟩
        · exact Or.inr ⟨v', Or.inr hv', vs, hvs⟩
      · rintro (h | ⟨v', (⟨hrt, rfl⟩ | hv'), vs, hvs⟩)
        · exact Or.inl (Or.inl h)
        · exact Or.inl (Or.inr hrt)
        · exact Or.inr ⟨v', hv', vs, hvs⟩
    | str s =>
      show (rt ∈ groupKeys gs ∨ _) ↔ _
      simp only [List.mem_cons, Prod.mk.injEq]
      constructor
      · rintro (h | ⟨v', hv', vs, hvs⟩)
        · exact Or.inl h
        · exact Or.inr ⟨v', Or.inr hv', vs, hvs⟩
      · rintro (h | ⟨v', (⟨-, rfl⟩ | hv'), vs, hvs⟩)
        · exact Or.inl h
        · cases hvs
        · exact Or.inr ⟨v', hv', vs, hvs⟩
    | num n =>
      show (rt ∈ groupKeys gs ∨ _) ↔ _
      simp only [List.mem_cons, Prod.mk.injEq]
      constructor
      · rintro (h | ⟨v', hv', vs, hvs⟩)
        · exact Or.inl h
        · exact Or.inr ⟨v', Or.inr hv', vs, hvs⟩
      · rintro (h | ⟨v', (⟨-, rfl⟩ | hv'), vs, hvs⟩)
        · exact Or.inl h
        · cases hvs
        · exact Or.inr ⟨v', hv', vs, hvs⟩
    | bool b =>
      show (rt ∈ groupKeys gs ∨ _) ↔ _
      simp only [List.mem_cons, Prod.mk.injEq]
      constructor
      · rintro (h | ⟨v', hv', vs, hvs⟩)
        · exact Or.inl h
        · exact Or.inr ⟨v', Or.inr hv', vs, hvs⟩
      · rintro (h | ⟨v', (⟨-, rfl⟩ | hv'), vs, hvs⟩)
        · exact Or.inl h
        · cases hvs
        · exact Or.inr ⟨v', hv', vs, hvs⟩
    | null =>
      show (rt ∈ groupKeys gs ∨ _) ↔ _
      simp only [List.mem_cons, Prod.mk.injEq]
      constructor
      · rintro (h | ⟨v', hv', vs, hvs⟩)
        · exact Or.inl h
        · exact Or.inr ⟨v', Or.inr hv', vs, hvs⟩
      · rintro (h | ⟨v', (⟨-, rfl⟩ | hv'), vs, hvs⟩)
        · exact Or.inl h
        · cases hvs
        · exact Or.inr ⟨v', hv', vs, hvs⟩
    | obj fs =>
      show (rt ∈ groupKeys gs ∨ _) ↔ _
      simp only [List.mem_cons, Prod.mk.injEq]
      constructor
      · rintro (h | ⟨v', hv', vs, hvs⟩)
        · exact Or.inl h
        · exact Or.inr ⟨v', Or.inr hv', vs, hvs⟩
      · rintro (h | ⟨v', (⟨-, rfl⟩ | hv'), vs, hvs⟩)
        · exact Or.inl h
        · cases hvs
        · exact Or.inr ⟨v', hv', vs, hvs⟩

lemma mem_groupVals_foldRule {x rt : String} (gs : RuleGroups) (rule : JVal) :
    x ∈ groupVals (foldRule gs rule) rt ↔
      x ∈ groupVals gs rt ∨ ruleHasVal rt x rule := by
  cases rule with
  | obj fields => exact mem_groupVals_foldFields fields gs
  | str s => simp [foldRule, ruleHasVal]
  | num n => simp [foldRule, ruleHasVal]
  | bool b => simp [foldRule, ruleHasVal]
  | null => simp [foldRule, ruleHasVal]
  | arr xs => simp [foldRule, ruleHasVal]

lemma mem_groupKeys_foldRule {rt : String} (gs : RuleGroups) (rule : JVal) :
    rt ∈ groupKeys (foldRule gs rule) ↔
      rt ∈ groupKeys gs ∨ ruleHasKey rt rule := by
  cases rule with
  | obj fields => exact mem_groupKeys_foldFields fields gs
  | str s => simp [foldRule, ruleHasKey]
  | num n => simp [foldRule, ruleHasKey]
  | bool b => simp [foldRule, ruleHasKey]
  | null => simp [foldRule, ruleHasKey]
  | arr xs => simp [foldRule, ruleHasKey]

lemma mem_groupVals_foldRules {x rt : String} :
    ∀ (rs : List JVal) (gs : RuleGroups),
      x ∈ groupVals (rs.foldl foldRule gs) rt ↔
        x ∈ groupVals gs rt ∨ ∃ r ∈ rs, ruleHasVal rt x r := by
  intro rs
  induction rs with
  | nil => intro gs; simp
  | cons r t ih =>
    intro gs
    simp only [List.foldl_cons]
    rw [ih, mem_groupVals_foldRule]
    simp only [List.mem_cons]
    constructor
    · rintro ((h | h) | ⟨r', hr', hv⟩)
      · exact Or.inl h
      · exact Or.inr ⟨r, Or.inl rfl, h⟩
      · exact Or.inr ⟨r', Or.inr hr', hv⟩
    · rintro (h | ⟨r', (rfl | hr'), hv⟩)
      · exact Or.inl (Or.inl h)
      · exact Or.inl (Or.inr hv)
      · exact Or.inr ⟨r', hr', hv⟩

lemma mem_groupKeys_foldRules {rt : String} :
    ∀ (rs : List JVal) (gs : RuleGroups),
      rt ∈ groupKeys (rs.foldl foldRule gs) ↔
        rt ∈ groupKeys gs ∨ ∃ r ∈ rs, ruleHasKey rt r := by
  intro rs
  induction rs with
  | nil => intro gs; simp
  | cons r t ih =>
    intro gs
    simp only [List.foldl_cons]
    rw [ih, mem_groupKeys_foldRule]
    simp only [List.mem_cons]
    constructor
    · rintro ((h | h) | ⟨r', hr', hv⟩)
      · exact Or.inl h
      · exact Or.inr ⟨r, Or.inl rfl, h⟩
      · exact Or.inr ⟨r', Or.inr hr', hv⟩
    · rintro (h | ⟨r', (rfl | hr'), hv⟩)
      · exact Or.inl (Or.inl h)
      · exact Or.inl (Or.inr hv)
      · exact Or.inr ⟨r', hr', hv⟩

lemma mem_groupVals_collect {x rt : String} (ps : List JVal) :
    x ∈ groupVals (collectGroups ps) rt ↔ ∃ p ∈ ps, payloadHasVal rt x p := by
  unfold collectGroups
  have main : ∀ (qs : List JVal) (gs : RuleGroups),
      x ∈ groupVals (qs.foldl (fun gs p => (extractRules p).foldl foldRule gs) gs) rt ↔
        x ∈ groupVals gs rt ∨ ∃ p ∈ qs, payloadHasVal rt x p := by
    intro qs
    induction qs with
    | nil => intro gs; simp
    | cons p t ih =>
      intro gs
      simp only [List.foldl_cons]
      rw [ih, mem_groupVals_foldRules]
      simp only [List.mem_cons, payloadHasVal]
      constructor
      · rintro ((h | h) | ⟨p', hp', hv⟩)
        · exact Or.inl h
        · exact Or.inr ⟨p, Or.inl rfl, h⟩
        · exact Or.inr ⟨p', Or.inr hp', hv⟩
      · rintro (h | ⟨p', (rfl | hp'), hv⟩)
        · exact Or.inl (Or.inl h)
        · exact Or.inl (Or.inr hv)
        · exact Or.inr ⟨p', hp', hv⟩
  rw [main ps []]
  simp [groupVals]

lemma mem_groupKeys_collect {rt : String} (ps : List JVal) :
    rt ∈ groupKeys (collectGroups ps) ↔ ∃ p ∈ ps, payloadHasKey rt p := by
  unfold collectGroups
  have main : ∀ (qs : List JVal) (gs : RuleGroups),
      rt ∈ groupKeys (qs.foldl (fun gs p => (extractRules p).foldl foldRule gs) gs) ↔
        rt ∈ groupKeys gs ∨ ∃ p ∈ qs, payloadHasKey rt p := by
    intro qs
    induction qs with
    | nil => intro gs; simp
    | cons p t ih =>
      intro gs
      simp only [List.foldl_cons]
      rw [ih, mem_groupKeys_foldRules]
      simp only [List.mem_cons, payloadHasKey]
      constructor
      · rintro ((h | h) | ⟨p', hp', hv⟩)
        · exact Or.inl h
        · exact Or.inr ⟨p, Or.inl rfl, h⟩
        · exact Or.inr ⟨p', Or.inr hp', hv⟩
      · rintro (h | ⟨p', (rfl | hp'), hv⟩)
        · exact Or.inl (Or.inl h)
        · exact Or.inl (Or.inr hv)
        · exact Or.inr ⟨p', hp', hv⟩
  rw [main ps []]
  simp [groupKeys]

lemma mem_ensureGroup {q : String × List String} {rt : String} {gs : RuleGroups}
    (h : q ∈ ensureGroup rt gs) : q ∈ gs ∨ q = (rt, []) := by
  unfold ensureGroup at h
  by_cases ha : (gs.any (fun p => p.1 = rt)) = true
  · rw [if_pos ha] at h
    exact Or.inl h
  · rw [if_neg ha] at h
    rcases List.mem_append.mp h with h' | h'
    · exact Or.inl h'
    · exact Or.inr (List.mem_singleton.mp h')

lemma mem_updateGroup {rt : String} {f : List String → List String} :
    ∀ {gs : RuleGroups} {q : String × List String}, q ∈ updateGroup rt f gs →
      q ∈ gs ∨ ∃ q' ∈ gs, q = (q'.1, f q'.2) := by
  intro gs
  induction gs with
  | nil => intro q h; cases h
  | cons p rest ih =>
    intro q h
    obtain ⟨k, vs⟩ := p
    unfold updateGroup at h
    by_cases hk : k = rt
    · rw [if_pos hk] at h
      rcases List.mem_cons.mp h with h' | h'
      · exact Or.inr ⟨(k, vs), List.mem_cons_self _ _, h'⟩
      · exact Or.inl (List.mem_cons_of_mem _ h')
    · rw [if_neg hk] at h
      rcases List.mem_cons.mp h with h' | h'
      · exact Or.inl (h' ▸ List.mem_cons_self _ _)
      · rcases ih h' with h'' | ⟨q', hq', hq⟩
        · exact Or.inl (List.mem_cons_of_mem _ h'')
        · exact Or.inr ⟨q', List.mem_cons_of_mem _ hq', hq⟩

lemma groupsWF_ensureGroup {gs : RuleGroups} (h : groupsWF gs) (rt : String) :
    groupsWF (ensureGroup rt gs) := by
  obtain ⟨hk, hv⟩ := h
  unfold ensureGroup
  by_cases ha : (gs.any (fun p => p.1 = rt)) = true
  · rw [if_pos ha]
    exact ⟨hk, hv⟩
  · rw [if_neg ha]
    constructor
    · unfold groupKeys
      rw [List.map_append]
      apply List.Nodup.append
      · exact hk
      · exact List.nodup_singleton rt
      · intro a hmem hmem'
        simp only [List.map_cons, List.map_nil, List.mem_singleton] at hmem'
        rw [hmem'] at hmem
        exact ha ((groupKeys_mem_iff gs).mpr hmem)
    · intro p hp
      rcases List.mem_append.mp hp with h' | h'
      · exact hv p h'
      · rw [List.mem_singleton.mp h']
        exact List.nodup_nil

lemma groupsWF_updateGroup {gs : RuleGroups} (h : groupsWF gs)
    (rt : String) (f : List String → List String)
    (hf : ∀ vs : List String, vs.Nodup → (f vs).Nodup) :
    groupsWF (updateGroup rt f gs) := by
  obtain ⟨hk, hv⟩ := h
  constructor
  · rw [groupKeys_updateGroup]
    exact hk
  · intro p hp
    rcases mem_updateGroup hp with h' | ⟨q', hq', rfl⟩
    · exact hv p h'
    · exact hf _ (hv q' hq')

lemma groupsWF_foldField {gs : RuleGroups} (h : groupsWF gs) (p : String × JVal) :
    groupsWF (foldField gs p) := by
  obtain ⟨k, v⟩ := p
  cases v with
  | arr vals =>
    exact groupsWF_updateGroup (groupsWF_ensureGroup h k) k _
      (fun vs hvs => addRuleValues_nodup vals hvs)
  | str s => exact h
  | num n => exact h
  | bool b => exact h
  | null => exact h
  | obj fs => exact h

lemma groupsWF_foldRule {gs : RuleGroups} (h : groupsWF gs) (rule : JVal) :
    groupsWF (foldRule gs rule) := by
  cases rule with
  | obj fields =>
    show groupsWF (fields.foldl foldField gs)
    induction fields generalizing gs with
    | nil => exact h
    | cons p rest ih =>
      simp only [List.foldl_cons]
      exact ih (groupsWF_foldField h p)
  | str s => exact h
  | num n => exact h
  | bool b => exact h
  | null => exact h
  | arr xs => exact h

lemma groupsWF_collect (ps : List JVal) : groupsWF (collectGroups ps) := by
  unfold collectGroups
  have main : ∀ (qs : List JVal) (gs : RuleGroups), groupsWF gs →
      groupsWF (qs.foldl (fun gs p => (extractRules p).foldl foldRule gs) gs) := by
    intro qs
    induction qs with
    | nil => intro gs h; exact h
    | cons p t ih =>
      intro gs h
      simp only [List.foldl_cons]
      apply ih
      have inner : ∀ (rs : List JVal) (gs' : RuleGroups), groupsWF gs' →
          groupsWF (rs.foldl foldRule gs') := by
        intro rs
        induction rs with
        | nil => intro gs' h'; exact h'
        | cons r t' ih' =>
          intro gs' h'
          simp only [List.foldl_cons]
          exact ih' _ (groupsWF_foldRule h' r)
      exact inner _ gs h
  exact main ps [] ⟨List.nodup_nil, fun p hp => absurd hp (List.not_mem_nil p)⟩

/-! ## The merged ruleset's rules list -/

lemma rulesOf_mergeJsonRulesets (ps : List JVal) (v : Int) :
    rulesOf (mergeJsonRulesets ps v) =
      (collectGroups ps).foldr (fun p acc =>
        if p.2.isEmpty then acc
        else JVal.obj [(p.1, JVal.arr ((mergeFinalSort p.2).map JVal.str))] :: acc) [] := rfl

lemma mem_mergedRules {r : JVal} : ∀ gs : RuleGroups,
    (r ∈ gs.foldr (fun p acc =>
        if p.2.isEmpty then acc
        else JVal.obj [(p.1, JVal.arr ((mergeFinalSort p.2).map JVal.str))] :: acc) []) ↔
      ∃ p ∈ gs, ¬p.2.isEmpty = true ∧
        r = JVal.obj [(p.1, JVal.arr ((mergeFinalSort p.2).map JVal.str))] := by
  intro gs
  induction gs with
  | nil => simp
  | cons q rest ih =>
    simp only [List.foldr_cons]
    by_cases hq : q.2.isEmpty = true
    · rw [if_pos hq, ih]
      constructor
      · rintro ⟨p, hp, hne, hr⟩
        exact ⟨p, List.mem_cons_of_mem _ hp, hne, hr⟩
      · rintro ⟨p, hp, hne, hr⟩
        rcases List.mem_cons.mp hp with rfl | hp'
        · exact absurd hq hne
        · exact ⟨p, hp', hne, hr⟩
    · rw [if_neg hq]
      constructor
      · intro hmem
        rcases List.mem_cons.mp hmem with rfl | hmem'
        · exact ⟨q, List.mem_cons_self _ _, hq, rfl⟩
        · obtain ⟨p, hp, hne, hr⟩ := ih.mp hmem'
          exact ⟨p, List.mem_cons_of_mem _ hp, hne, hr⟩
      · rintro ⟨p, hp, hne, hr⟩
        rcases List.mem_cons.mp hp with rfl | hp'
        · rw [hr]
          exact List.mem_cons_self _ _
        · exact List.mem_cons_of_mem _ (ih.mpr ⟨p, hp', hne, hr⟩)

lemma groupVals_nodup : ∀ {gs : RuleGroups}, groupsWF gs → ∀ rt : String,
    (groupVals gs rt).Nodup := by
  intro gs
  induction gs with
  | nil => intro _ rt; exact List.nodup_nil
  | cons p rest ih =>
    intro h rt
    obtain ⟨k, vs⟩ := p
    unfold groupVals
    by_cases hk : k = rt
    · rw [if_pos hk]
      exact h.2 (k, vs) (List.mem_cons_self _ _)
    · rw [if_neg hk]
      apply ih ?_ rt
      constructor
      · have := h.1
        unfold groupKeys at this ⊢
        simp only [List.map_cons] at this
        exact this.of_cons
      · intro q hq
        exact h.2 q (List.mem_cons_of_mem _ hq)

/-! ## Claim theorems: merging -/

/-- Claim C2: for every collection of JSON payloads merged into one
ruleset, every emitted value list is duplicate-free; and merging the two
`domain_suffix` payloads of scenario A with version 2 yields exactly the
merged ruleset of scenario A. -/
theorem merge_dedup_spec :
    (∀ (ps : List JVal) (v : Int) (r : JVal), r ∈ rulesOf (mergeJsonRulesets ps v) →
      ∃ (rt : String) (vs : List String),
        r = JVal.obj [(rt, JVal.arr (vs.map JVal.str))] ∧
        vs.Nodup ∧ (vs.map JVal.str).Nodup) ∧
    (mergeJsonRulesets
        [JVal.obj [("rules", JVal.arr [JVal.obj [("domain_suffix",
            JVal.arr [JVal.str "a.com", JVal.str "b.com"])]])],
         JVal.obj [("rules", JVal.arr [JVal.obj [("domain_suffix",
            JVal.arr [JVal.str "b.com", JVal.str "c.com"])]])]] 2 =
      JVal.obj [("version", JVal.num 2), ("rules", JVal.arr [JVal.obj [("domain_suffix",
        JVal.arr [JVal.str "a.com", JVal.str "b.com", JVal.str "c.com"])]])]) := by
  constructor
  · intro ps v r hr
    rw [rulesOf_mergeJsonRulesets, mem_mergedRules] at hr
    obtain ⟨p, hp, -, rfl⟩ := hr
    have hnd : (mergeFinalSort p.2).Nodup :=
      mergeFinalSort_nodup ((groupsWF_collect ps).2 p hp)
    exact ⟨p.1, mergeFinalSort p.2, rfl, hnd,
      hnd.map (fun a b h => JVal.str.inj h)⟩
  · rfl

/-- Witness for C2: the scenario-A merge produces one rule whose value
list is duplicate-free. -/
theorem merge_dedup_witness :
    ∃ (rt : String) (vs : List String),
      JVal.obj [("domain_suffix", JVal.arr [JVal.str "a.com", JVal.str "b.com",
        JVal.str "c.com"])] = JVal.obj [(rt, JVal.arr (vs.map JVal.str))] ∧
      vs.Nodup ∧ (vs.map JVal.str).Nodup :=
  merge_dedup_spec.1
    [JVal.obj [("rules", JVal.arr [JVal.obj [("domain_suffix",
        JVal.arr [JVal.str "a.com", JVal.str "b.com"])]])],
     JVal.obj [("rules", JVal.arr [JVal.obj [("domain_suffix",
        JVal.arr [JVal.str "b.com", JVal.str "c.com"])]])]] 2
    (JVal.obj [("domain_suffix", JVal.arr [JVal.str "a.com", JVal.str "b.com",
      JVal.str "c.com"])])
    (List.mem_singleton.mpr rfl)

lemma rulesOf_assembleConvertRules (mergedByType : List (String × List String))
    (domainEntries : List String) (logicRules : List JVal) (v : Int) :
    rulesOf (assembleConvertRules mergedByType domainEntries logicRules v) =
      (if domainEntries.isEmpty then nonDomainRules mergedByType
       else JVal.obj [("domain", JVal.arr ((pySorted domainEntries).map JVal.str))] ::
         nonDomainRules mergedByType) ++ logicRules := rfl

/-- Counterexample for C7: `merge_json_rulesets` does not move `domain`
to index 0 — a merge whose first encountered rule type is `ip_cidr` keeps
`domain` at index 1 even though it is present. -/
theorem merge_domain_position_cex :
    rulesOf (mergeJsonRulesets [ipPayload, domainPayload] 2) =
      [JVal.obj [("ip_cidr", JVal.arr [JVal.str "10.0.0.0/8"])],
       JVal.obj [("domain", JVal.arr [JVal.str "a.com"])]] ∧
    JVal.obj [("ip_cidr", JVal.arr [JVal.str "10.0.0.0/8"])] ≠
      JVal.obj [("domain", JVal.arr [JVal.str "a.com"])] := by
  refine ⟨rfl, ?_⟩
  intro h
  injection h with h1
  injection h1 with h2 h3
  injection h2 with h4 h5
  exact absurd h4 (by decide)

/-- Amended C7: the converter's output assembly (converter.py lines
296-311) emits the sorted `domain` group at index 0 when domain entries
exist, then the non-domain rule types in encounter order, then the logical
rules; the processor's `merge_json_rulesets` instead emits all rule types
in encounter order (see the counterexample). -/
theorem converter_assembly_order (mergedByType : List (String × List String))
    (domainEntries : List String) (logicRules : List JVal) (v : Int) :
    rulesOf (assembleConvertRules mergedByType domainEntries logicRules v) =
      (if domainEntries.isEmpty then []
       else [JVal.obj [("domain", JVal.arr ((pySorted domainEntries).map JVal.str))]]) ++
      nonDomainRules mergedByType ++ logicRules := by
  rw [rulesOf_assembleConvertRules]
  by_cases hd : domainEntries.isEmpty = true
  · rw [if_pos hd, if_pos hd]
    rfl
  · rw [if_neg hd, if_neg hd]
    rfl

/-- Counterexample for C8: merging the same two payloads in the two
possible orders yields different merged rulesets — the rules-list order
follows the payload order. -/
theorem merge_not_commutative_cex :
    ([ipPayload, domainPayload].Perm [domainPayload, ipPayload]) ∧
    mergeJsonRulesets [ipPayload, domainPayload] 2 ≠
      mergeJsonRulesets [domainPayload, ipPayload] 2 := by
  refine ⟨List.Perm.swap domainPayload ipPayload [], ?_⟩
  intro h
  have h' : JVal.obj [("version", JVal.num 2), ("rules", JVal.arr
      [JVal.obj [("ip_cidr", JVal.arr [JVal.str "10.0.0.0/8"])],
       JVal.obj [("domain", JVal.arr [JVal.str "a.com"])]])] =
    JVal.obj [("version", JVal.num 2), ("rules", JVal.arr
      [JVal.obj [("domain", JVal.arr [JVal.str "a.com"])],
       JVal.obj [("ip_cidr", JVal.arr [JVal.str "10.0.0.0/8"])]])] := h
  injection h' with hfields
  injection hfields with hv htail
  injection htail with hrules htl
  injection hrules with hfst harr
  injection harr with hlist
  injection hlist with hhead htl2
  injection hhead with hf
  injection hf with hp htl3
  injection hp with hname hval
  exact absurd hname (by decide)

/-- Amended C8: under a permutation of the payload list, the merge
collects the same rule types (up to order) and, for each rule type, the
same value set; whenever a rule type has at most 10000 values the emitted,
sorted value list is identical — only the order of the rules list (and
the chunked ordering above 10000 values) may differ. -/
theorem merge_commutative_up_to_order (ps qs : List JVal) (hperm : ps.Perm qs)
    (rt : String) :
    (groupKeys (collectGroups ps)).Perm (groupKeys (collectGroups qs)) ∧
    (groupVals (collectGroups ps) rt).Perm (groupVals (collectGroups qs) rt) ∧
    ((groupVals (collectGroups ps) rt).length ≤ 10000 →
      mergeFinalSort (groupVals (collectGroups ps) rt) =
        mergeFinalSort (groupVals (collectGroups qs) rt)) := by
  have hkeys : ∀ k, k ∈ groupKeys (collectGroups ps) ↔ k ∈ groupKeys (collectGroups qs) := by
    intro k
    rw [mem_groupKeys_collect, mem_groupKeys_collect]
    constructor
    · rintro ⟨p, hp, h⟩
      exact ⟨p, hperm.mem_iff.mp hp, h⟩
    · rintro ⟨p, hp, h⟩
      exact ⟨p, hperm.mem_iff.mpr hp, h⟩
  have hvals : ∀ x, x ∈ groupVals (collectGroups ps) rt ↔
      x ∈ groupVals (collectGroups qs) rt := by
    intro x
    rw [mem_groupVals_collect, mem_groupVals_collect]
    constructor
    · rintro ⟨p, hp, h⟩
      exact ⟨p, hperm.mem_iff.mp hp, h⟩
    · rintro ⟨p, hp, h⟩
      exact ⟨p, hperm.mem_iff.mpr hp, h⟩
  have hkperm := (List.perm_ext_iff_of_nodup
    (groupsWF_collect ps).1 (groupsWF_collect qs).1).mpr hkeys
  have hvperm := (List.perm_ext_iff_of_nodup
    (groupVals_nodup (groupsWF_collect ps) rt)
    (groupVals_nodup (groupsWF_collect qs) rt)).mpr hvals
  refine ⟨hkperm, hvperm, ?_⟩
  intro hlen
  have hlen2 : (groupVals (collectGroups qs) rt).length ≤ 10000 := by
    rw [← hvperm.length_eq]
    exact hlen
  unfold mergeFinalSort
  rw [if_neg (by omega), if_neg (by omega)]
  exact pySorted_eq_of_perm hvperm

/-- Witness for C8 (amended): for the two-payload example and rule type
`domain`, the emitted sorted value list is the same in both orders. -/
theorem merge_commutative_witness :
    mergeFinalSort (groupVals (collectGroups [ipPayload, domainPayload]) "domain") =
      mergeFinalSort (groupVals (collectGroups [domainPayload, ipPayload]) "domain") :=
  (merge_commutative_up_to_order [ipPayload, domainPayload] [domainPayload, ipPayload]
    (List.Perm.swap domainPayload ipPayload []) "domain").2.2 (by decide)

/-! ## Claim theorems: chunked sorting of large value sets -/

lemma chunkList_of_ne_nil (c : Nat) (hc : 1 ≤ c) {l : List α} (h : l ≠ []) :
    chunkList c l = l.take c :: chunkList c (l.drop c) := by
  cases l with
  | nil => exact absurd rfl h
  | cons x xs => exact chunkList_cons c hc x xs

lemma pyLe_refl (a : String) : pyLe a a := by
  unfold pyLe pyLeB
  rw [lexLt_irrefl]
  rfl

lemma lexLt_a_cons_b (cs : List Char) : lexLt ['a'] ('b' :: cs) = true := by
  simp only [lexLt]
  rw [if_pos (by decide)]

lemma bstr_toList (k : Nat) : (bstr k).toList = 'b' :: List.replicate k 'b' := by
  unfold bstr
  rw [List.replicate_succ]
  rfl

lemma bstr_injective : Function.Injective bstr := by
  intro m n h
  have h2 := congrArg (fun s : String => s.toList.length) h
  simp only [bstr_toList, List.length_cons, List.length_replicate] at h2
  omega

lemma bstr_ne_a (k : Nat) : bstr k ≠ "a" := by
  intro h
  have h2 := congrArg String.toList h
  rw [bstr_toList] at h2
  have : ('b' : Char) = 'a' := by
    have h3 := congrArg (fun l => l.head?) h2
    simp only [List.head?_cons] at h3
    exact Option.some.inj h3
  exact absurd this (by decide)

lemma cexList_length : cexList.length = 50001 := by
  unfold cexList
  rw [List.length_append, List.length_map, List.length_range]
  norm_num

lemma cexList_nodup : cexList.Nodup := by
  apply List.Nodup.append
  · exact (List.nodup_range 50000).map bstr_injective
  · exact List.nodup_singleton "a"
  · intro x hx hx'
    obtain ⟨k, -, rfl⟩ := List.mem_map.mp hx
    exact bstr_ne_a k (List.mem_singleton.mp hx')

lemma cexList_take : cexList.take 10000 = (List.range 10000).map bstr := by
  unfold cexList
  rw [List.take_append_of_le_length (by
    simp only [List.length_map, List.length_range]
    omega)]
  rw [← List.map_take, List.take_range]
  norm_num

/-- Counterexample for C1: `cexList` is a duplicate-free value set of
50001 entries on which the chunked final sort of
`create_ip_ruleset_from_text_files` differs from a single global sort —
its first chunk contains only `b`-strings, so the chunked result starts
with a `b`-string, while the global sort starts with `"a"`. -/
theorem chunked_sort_not_global_cex :
    cexList.length > 50000 ∧ cexList.Nodup ∧ ipFinalSort cexList ≠ pySorted cexList := by
  refine ⟨by rw [cexList_length]; omega, cexList_nodup, ?_⟩
  intro heq
  rw [ipFinalSort, if_pos (by rw [cexList_length]; omega)] at heq
  have hne : cexList ≠ [] := by
    intro h
    have hl := cexList_length
    rw [h] at hl
    exact absurd hl (by simp)
  have htake_ne : (pySorted (cexList.take 10000)) ≠ [] := by
    intro h0
    have hl := congrArg List.length h0
    rw [(pySorted_perm _).length_eq, cexList_take] at hl
    simp at hl
  have hhead : (chunkedConcatSort 10000 cexList).head? =
      (pySorted (cexList.take 10000)).head? := by
    unfold chunkedConcatSort
    rw [chunkList_of_ne_nil 10000 (by omega) hne]
    rw [List.map_cons, List.flatten_cons]
    exact List.head?_append_of_ne_nil _ htake_ne
  obtain ⟨y, hy⟩ : ∃ y, (pySorted (cexList.take 10000)).head? = some y := by
    cases hp : pySorted (cexList.take 10000) with
    | nil => exact absurd hp htake_ne
    | cons a t => exact ⟨a, rfl⟩
  have hymem : y ∈ cexList.take 10000 :=
    mem_pySorted.mp (List.mem_of_mem_head? (by rw [hy]; rfl))
  rw [cexList_take] at hymem
  obtain ⟨k, -, rfl⟩ := List.mem_map.mp hymem
  have hz : (pySorted cexList).head? = some (bstr k) := by
    rw [← heq, hhead, hy]
  have hamem : "a" ∈ pySorted cexList := by
    rw [mem_pySorted]
    unfold cexList
    rw [List.mem_append]
    exact Or.inr (List.mem_singleton.mpr rfl)
  have hsorted := pySorted_sorted cexList
  cases hp : pySorted cexList with
  | nil =>
    rw [hp] at hz
    cases hz
  | cons h0 t =>
    rw [hp] at hz hamem hsorted
    have hh0 : h0 = bstr k := by
      simpa using hz
    subst hh0
    have hle : pyLe (bstr k) "a" := by
      rcases List.mem_cons.mp hamem with h | h
      · rw [← h]
        exact pyLe_refl _
      · exact List.rel_of_sorted_cons hsorted _ h
    rw [pyLe_iff] at hle
    have hlt : lexLt "a".toList (bstr k).toList = true := by
      rw [bstr_toList]
      exact lexLt_a_cons_b _
    rw [hlt] at hle
    cases hle

/-- Amended C1: the chunked final sort always produces a permutation of
the global sort (the same value set), and agrees with it exactly on sets
of at most 50000 entries; above that bound the individually sorted chunks
are concatenated without a merge, which does not guarantee the global
ordering (see the counterexample). -/
theorem chunked_sort_amended :
    (∀ l : List String, (ipFinalSort l).Perm (pySorted l)) ∧
    (∀ l : List String, l.length ≤ 50000 → ipFinalSort l = pySorted l) := by
  constructor
  · intro l
    exact (ipFinalSort_perm l).trans (pySorted_perm l).symm
  · intro l hl
    rw [ipFinalSort, if_neg (by omega)]

/-- Witness for C1 (amended): on a two-element list the final sort is the
global sort and a permutation of it. -/
theorem chunked_sort_amended_witness :
    (ipFinalSort ["b", "a"]).Perm (pySorted ["b", "a"]) ∧
    ipFinalSort ["b", "a"] = pySorted ["b", "a"] :=
  ⟨chunked_sort_amended.1 ["b", "a"],
   chunked_sort_amended.2 ["b", "a"] (by decide)⟩

/-! ## Claim theorems: serialisation order -/

instance : IsTotal (String × JVal) (fun p q => pyLe p.1 q.1) :=
  ⟨fun a b => total_of pyLe a.1 b.1⟩

instance : IsTrans (String × JVal) (fun p q => pyLe p.1 q.1) :=
  ⟨fun a b c hab hbc => IsTrans.trans (r := pyLe) a.1 b.1 c.1 hab hbc⟩

lemma fieldKeysOrdered_of_sorted : ∀ {ks : List String},
    ks.Sorted pyLe → fieldKeysOrdered ks = true := by
  intro ks
  induction ks with
  | nil => intro h; rfl
  | cons a t ih =>
    intro h
    cases t with
    | nil => rfl
    | cons b t' =>
      have hab : pyLe a b :=
        List.rel_of_sorted_cons h b (List.mem_cons_self b t')
      have ht : (b :: t').Sorted pyLe := h.of_cons
      show (pyLeB a b && fieldKeysOrdered (b :: t')) = true
      rw [show pyLeB a b = true from hab, ih ht]
      rfl

lemma keysSortedFields_eq_all : ∀ fs : List (String × JVal),
    keysSortedFields fs = fs.all (fun p => keysSorted p.2) := by
  intro fs
  induction fs with
  | nil => rfl
  | cons p rest ih =>
    obtain ⟨k, v⟩ := p
    show (keysSorted v && keysSortedFields rest) = _
    rw [ih]
    rfl

mutual

lemma keysSorted_sortDict : ∀ d : JVal, keysSorted (sortDict d) = true
  | .str _ => rfl
  | .num _ => rfl
  | .bool _ => rfl
  | .null => rfl
  | .arr xs => keysSortedList_sortDictList xs
  | .obj fs => by
    show (fieldKeysOrdered ((sortFieldsByKey (sortDictFields fs)).map Prod.fst) &&
      keysSortedFields (sortFieldsByKey (sortDictFields fs))) = true
    rw [Bool.and_eq_true]
    constructor
    · apply fieldKeysOrdered_of_sorted
      have hs := List.sorted_insertionSort (fun p q : String × JVal => pyLe p.1 q.1)
        (sortDictFields fs)
      exact List.Pairwise.map Prod.fst (fun a b h => h) hs
    · rw [keysSortedFields_eq_all, List.all_eq_true]
      intro p hp
      have hp' : p ∈ sortDictFields fs :=
        (List.perm_insertionSort _ _).mem_iff.mp hp
      have hall := keysSortedFields_sortDictFields fs
      rw [keysSortedFields_eq_all, List.all_eq_true] at hall
      exact hall p hp'

lemma keysSortedFields_sortDictFields : ∀ fs : List (String × JVal),
    keysSortedFields (sortDictFields fs) = true
  | [] => rfl
  | (k, v) :: rest => by
    show (keysSorted (sortDict v) && keysSortedFields (sortDictFields rest)) = true
    rw [keysSorted_sortDict v, keysSortedFields_sortDictFields rest]
    rfl

lemma keysSortedList_sortDictList : ∀ xs : List JVal,
    keysSortedList (sortDictList xs) = true
  | [] => rfl
  | x :: t => by
    show (keysSorted (sortDict x) && keysSortedList (sortDictList t)) = true
    rw [keysSorted_sortDict x, keysSortedList_sortDictList t]
    rfl

end

/-- Counterexample for C3: the writer's `sort_dict` sorts object keys but
leaves value lists untouched — the serialised document for an unsorted
scalar list still contains that list unsorted, contradicting "every list
of scalar values lexicographically sorted". -/
theorem writer_list_sorting_cex :
    sortDict (JVal.obj [("b", JVal.num 1), ("a", JVal.arr [JVal.str "z", JVal.str "a"])]) =
      JVal.obj [("a", JVal.arr [JVal.str "z", JVal.str "a"]), ("b", JVal.num 1)] ∧
    scalarListsSorted (sortDict (JVal.obj [("b", JVal.num 1),
      ("a", JVal.arr [JVal.str "z", JVal.str "a"])])) = false :=
  ⟨rfl, rfl⟩

/-- Amended C3: the converter's writer serialises with recursively sorted
object keys, and arrays are passed through element-wise in their existing
order (never re-sorted); the value lists of merged rulesets are sorted at
merge time, not by the writer, and the processor's `write_json_file`
applies no sorting at all. -/
theorem sort_dict_behaviour :
    (∀ d : JVal, keysSorted (sortDict d) = true) ∧
    (∀ xs : List JVal, sortDict (JVal.arr xs) =
      JVal.arr (xs.map (fun x => sortDict x))) := by
  constructor
  · exact keysSorted_sortDict
  · intro xs
    show JVal.arr (sortDictList xs) = _
    have : ∀ ys : List JVal, sortDictList ys = ys.map (fun x => sortDict x) := by
      intro ys
      induction ys with
      | nil => rfl
      | cons y t ih =>
        show sortDict y :: sortDictList t = _
        rw [ih]
        rfl
    rw [this]

/-! ## Claim theorems: logical rules -/

/-- Counterexample for C9: a logical rule passing through the processor's
`filter_rules` loses its `type` and `mode` fields (they are not
list-valued), so logical rules are not preserved structurally through the
filter. -/
theorem logical_rule_filter_cex :
    filterRules [JVal.obj [("type", JVal.str "logical"), ("mode", JVal.str "and"),
        ("rules", JVal.arr [JVal.obj [("domain", JVal.str "foo.com")],
          JVal.obj [("port", JVal.str "443")]])]] =
      ([JVal.obj [("rules", JVal.arr [JVal.obj [("domain", JVal.str "foo.com")],
        JVal.obj [("port", JVal.str "443")]])]], 0) ∧
    JVal.obj [("rules", JVal.arr [JVal.obj [("domain", JVal.str "foo.com")],
        JVal.obj [("port", JVal.str "443")]])] ≠
      JVal.obj [("type", JVal.str "logical"), ("mode", JVal.str "and"),
        ("rules", JVal.arr [JVal.obj [("domain", JVal.str "foo.com")],
          JVal.obj [("port", JVal.str "443")]])] := by
  refine ⟨rfl, ?_⟩
  intro h
  injection h with h1
  injection h1 with h2 h3
  injection h2 with h4 h5
  exact absurd h4 (by decide)

/-- Amended C9: the converter parses the scenario-E line into a logical
rule with mode `and` and exactly the subrules `{domain: foo.com}` and
`{port: 443}`, and its assembly appends all logical rules verbatim after
the scalar rule groups (no value-level deduplication applies to them);
when such a rule instead passes through the processor's `filter_rules`,
only its subrule list survives — `type` and `mode` are dropped — and the
processor's merge discards logical rules entirely. -/
theorem logical_rule_handling :
    (parseAndRule "AND,((DOMAIN,foo.com),(DST-PORT,443))" =
      JVal.obj [("type", JVal.str "logical"), ("mode", JVal.str "and"),
        ("rules", JVal.arr [JVal.obj [("domain", JVal.str "foo.com")],
          JVal.obj [("port", JVal.str "443")]])]) ∧
    (∀ (mergedByType : List (String × List String)) (domainEntries : List String)
        (logicRules : List JVal) (v : Int),
      ∃ scalarPrefix : List JVal,
        rulesOf (assembleConvertRules mergedByType domainEntries logicRules v) =
          scalarPrefix ++ logicRules) ∧
    (filterRules [JVal.obj [("type", JVal.str "logical"), ("mode", JVal.str "and"),
        ("rules", JVal.arr [JVal.obj [("domain", JVal.str "foo.com")],
          JVal.obj [("port", JVal.str "443")]])]] =
      ([JVal.obj [("rules", JVal.arr [JVal.obj [("domain", JVal.str "foo.com")],
        JVal.obj [("port", JVal.str "443")]])]], 0)) := by
  refine ⟨rfl, ?_, rfl⟩
  intro mergedByType domainEntries logicRules v
  exact ⟨_, rulesOf_assembleConvertRules mergedByType domainEntries logicRules v⟩
